import Mathlib

/-!
# Verification of the ArborX Borůvka minimum-spanning-tree driver

This file embeds, in Lean 4, the Borůvka MST driver of
`src/cluster/ArborX_MinimumSpanningTree.hpp` (`MinimumSpanningTree`
constructor and `doBoruvka`) together with models of the `Details::`
helpers it calls (`FindComponentNearestNeighbors`, the
`UpdateComponentsAndEdges` passes, `updateSidedParents`,
`assignVertexParents`, `computeParentsAndReorderEdges`,
`finalizeEdges`), whose sources are not part of the repository snapshot
and are therefore modelled from the specification.

The embedding works at the leaf/component level: the bounding-volume
hierarchy only accelerates the nearest-neighbor searches, so the
per-round result of `FindComponentNearestNeighbors` is modelled by its
specified postcondition — for every component, the minimum-weight
out-going directed edge under the total order
(weight, min endpoint, max endpoint).  Vertices are `Fin n`, weights
are rationals (exact stand-ins for the C++ floats), and the metric is
an arbitrary symmetric function, which covers both the Euclidean and
the mutual-reachability instantiations.
-/

namespace ArborX

/-- `WeightedEdge` of the source (`detail/ArborX_WeightedEdge.hpp`, used by
`MinimumSpanningTree::edges`): two endpoint indices and a weight.
Modelled from the spec: "WeightedEdge = (source: int, target: int,
weight: float)"; endpoints are `Fin n`, the weight an exact rational. -/
structure WEdge (n : ℕ) where
  source : Fin n
  target : Fin n
  weight : ℚ
  deriving DecidableEq, Repr

variable {n : ℕ}

/-- Undirected adjacency generated by a list of edges. -/
def adjE (L : List (WEdge n)) (x y : Fin n) : Prop :=
  ∃ e ∈ L, (e.source = x ∧ e.target = y) ∨ (e.source = y ∧ e.target = x)

instance (L : List (WEdge n)) (x y : Fin n) : Decidable (adjE L x y) := by
  unfold adjE; infer_instance

/-- Connectivity: reflexive-transitive closure of the edge adjacency. -/
def conn (L : List (WEdge n)) : Fin n → Fin n → Prop :=
  Relation.ReflTransGen (adjE L)

theorem adjE_symm {L : List (WEdge n)} {x y : Fin n} (h : adjE L x y) : adjE L y x := by
  obtain ⟨e, he, h | h⟩ := h
  · exact ⟨e, he, Or.inr h⟩
  · exact ⟨e, he, Or.inl h⟩

theorem conn_refl (L : List (WEdge n)) (x : Fin n) : conn L x x :=
  Relation.ReflTransGen.refl

theorem conn_trans {L : List (WEdge n)} {x y z : Fin n} (h₁ : conn L x y)
    (h₂ : conn L y z) : conn L x z :=
  Relation.ReflTransGen.trans h₁ h₂

theorem conn_symm {L : List (WEdge n)} {x y : Fin n} (h : conn L x y) : conn L y x := by
  induction h with
  | refl => exact conn_refl L x
  | tail _ hadj ih =>
      exact conn_trans (Relation.ReflTransGen.single (adjE_symm hadj)) ih

theorem conn_of_adjE {L : List (WEdge n)} {x y : Fin n} (h : adjE L x y) : conn L x y :=
  Relation.ReflTransGen.single h

/-- One step of the reachable-set saturation. -/
def connStep (L : List (WEdge n)) (s : Finset (Fin n)) : Finset (Fin n) :=
  s ∪ Finset.univ.filter (fun y => ∃ v ∈ s, adjE L v y)

/-- The set of vertices connected to `x`, computed by saturating `n` times. -/
def reachSet (L : List (WEdge n)) (x : Fin n) : Finset (Fin n) :=
  (connStep L)^[n] {x}

theorem subset_connStep (L : List (WEdge n)) (s : Finset (Fin n)) : s ⊆ connStep L s :=
  Finset.subset_union_left

theorem connStep_mono (L : List (WEdge n)) {s t : Finset (Fin n)} (h : s ⊆ t) :
    connStep L s ⊆ connStep L t := by
  intro y hy
  rcases Finset.mem_union.1 hy with hy | hy
  · exact Finset.mem_union_left _ (h hy)
  · refine Finset.mem_union_right _ ?_
    rw [Finset.mem_filter] at hy ⊢
    obtain ⟨_, v, hv, hadj⟩ := hy
    exact ⟨Finset.mem_univ _, v, h hv, hadj⟩

theorem subset_connStep_iterate (L : List (WEdge n)) (s : Finset (Fin n)) (k : ℕ) :
    s ⊆ (connStep L)^[k] s := by
  induction k with
  | zero => simp
  | succ k ih =>
      rw [Function.iterate_succ_apply']
      exact ih.trans (subset_connStep L _)

/-- If an iteration step makes no progress, the set is closed. -/
theorem connStep_fixpoint_closed {L : List (WEdge n)} {s : Finset (Fin n)}
    (h : connStep L s = s) {v y : Fin n} (hv : v ∈ s) (hadj : adjE L v y) : y ∈ s := by
  have : y ∈ connStep L s := by
    refine Finset.mem_union_right _ ?_
    rw [Finset.mem_filter]
    exact ⟨Finset.mem_univ _, v, hv, hadj⟩
  rwa [h] at this

theorem connStep_iterate_saturates (L : List (WEdge n)) (s : Finset (Fin n)) :
    ∃ k ≤ n, connStep L ((connStep L)^[k] s) = (connStep L)^[k] s := by
  by_contra hcon
  push_neg at hcon
  have hstrict : ∀ k ≤ n, (connStep L)^[k] s ⊂ (connStep L)^[k + 1] s := by
    intro k hk
    rw [Function.iterate_succ_apply']
    exact Finset.ssubset_iff_subset_ne.2 ⟨subset_connStep L _, fun h => hcon k hk h.symm⟩
  have hcard : ∀ k ≤ n + 1, k ≤ ((connStep L)^[k] s).card := by
    intro k hk
    induction k with
    | zero => simp
    | succ k ih =>
        have h1 : k ≤ ((connStep L)^[k] s).card := ih (by omega)
        have h2 : (connStep L)^[k] s ⊂ (connStep L)^[k + 1] s := hstrict k (by omega)
        have := Finset.card_lt_card h2
        omega
  have h1 : n + 1 ≤ ((connStep L)^[n + 1] s).card := hcard (n + 1) le_rfl
  have h2 : ((connStep L)^[n + 1] s).card ≤ n := by
    have := Finset.card_le_card (Finset.subset_univ ((connStep L)^[n + 1] s))
    simpa using this
  omega

theorem reachSet_fixed (L : List (WEdge n)) (x : Fin n) :
    connStep L (reachSet L x) = reachSet L x := by
  obtain ⟨k, hk, hfix⟩ := connStep_iterate_saturates L ({x} : Finset (Fin n))
  have hstable : ∀ m, (connStep L)^[k + m] ({x} : Finset (Fin n)) =
      (connStep L)^[k] ({x} : Finset (Fin n)) := by
    intro m
    induction m with
    | zero => rfl
    | succ m ih =>
        have : k + (m + 1) = (k + m) + 1 := by omega
        rw [this, Function.iterate_succ_apply', ih, hfix]
  have hn : (connStep L)^[n] ({x} : Finset (Fin n)) =
      (connStep L)^[k] ({x} : Finset (Fin n)) := by
    have hnk : n = k + (n - k) := by omega
    calc (connStep L)^[n] ({x} : Finset (Fin n))
        = (connStep L)^[k + (n - k)] ({x} : Finset (Fin n)) :=
          congrArg (fun m => (connStep L)^[m] ({x} : Finset (Fin n))) hnk
      _ = (connStep L)^[k] ({x} : Finset (Fin n)) := hstable (n - k)
  unfold reachSet
  rw [hn, hfix]

theorem mem_reachSet_self (L : List (WEdge n)) (x : Fin n) : x ∈ reachSet L x :=
  subset_connStep_iterate L ({x} : Finset (Fin n)) n (Finset.mem_singleton_self x)

theorem conn_of_mem_reachSet {L : List (WEdge n)} {x y : Fin n}
    (h : y ∈ reachSet L x) : conn L x y := by
  suffices H : ∀ k (s : Finset (Fin n)), (∀ z ∈ s, conn L x z) →
      ∀ z ∈ (connStep L)^[k] s, conn L x z by
    refine H n ({x} : Finset (Fin n)) ?_ y h
    intro z hz
    rw [Finset.mem_singleton] at hz
    rw [hz]
    exact conn_refl L x
  intro k
  induction k with
  | zero => intro s hs z hz; exact hs z hz
  | succ k ih =>
      intro s hs z hz
      rw [Function.iterate_succ_apply] at hz
      refine ih (connStep L s) ?_ z hz
      intro w hw
      rcases Finset.mem_union.1 hw with hw | hw
      · exact hs w hw
      · rw [Finset.mem_filter] at hw
        obtain ⟨_, v, hv, hadj⟩ := hw
        exact conn_trans (hs v hv) (conn_of_adjE hadj)

theorem mem_reachSet_of_conn {L : List (WEdge n)} {x y : Fin n}
    (h : conn L x y) : y ∈ reachSet L x := by
  induction h with
  | refl => exact mem_reachSet_self L x
  | tail _ hadj ih =>
      exact connStep_fixpoint_closed (reachSet_fixed L x) ih hadj

theorem mem_reachSet_iff_conn {L : List (WEdge n)} {x y : Fin n} :
    y ∈ reachSet L x ↔ conn L x y :=
  ⟨conn_of_mem_reachSet, fun h => mem_reachSet_of_conn h⟩

theorem reachSet_nonempty (L : List (WEdge n)) (x : Fin n) : (reachSet L x).Nonempty :=
  ⟨x, mem_reachSet_self L x⟩

/-- The component label of a leaf: the minimum index connected to it.  This is
the leaf-label invariant of the spec (§3 Labels together with the
minimum-id canonicalization of §3 Component id space): after each union
step, a leaf's label is the smallest index in its current component, the
component being the connected set under the MST edges found so far. -/
def minReach (L : List (WEdge n)) (x : Fin n) : Fin n :=
  if h : (reachSet L x).Nonempty then (reachSet L x).min' h else x

theorem minReach_eq_min' (L : List (WEdge n)) (x : Fin n) :
    minReach L x = (reachSet L x).min' (reachSet_nonempty L x) := by
  unfold minReach
  rw [dif_pos (reachSet_nonempty L x)]

theorem conn_minReach (L : List (WEdge n)) (x : Fin n) : conn L x (minReach L x) := by
  rw [minReach_eq_min']
  exact conn_of_mem_reachSet ((reachSet L x).min'_mem (reachSet_nonempty L x))

theorem reachSet_eq_of_conn {L : List (WEdge n)} {x y : Fin n} (h : conn L x y) :
    reachSet L x = reachSet L y := by
  ext z
  rw [mem_reachSet_iff_conn, mem_reachSet_iff_conn]
  exact ⟨fun hz => conn_trans (conn_symm h) hz, fun hz => conn_trans h hz⟩

theorem minReach_eq_of_conn {L : List (WEdge n)} {x y : Fin n} (h : conn L x y) :
    minReach L x = minReach L y := by
  rw [minReach_eq_min', minReach_eq_min']
  congr 1
  exact reachSet_eq_of_conn h

theorem conn_of_minReach_eq {L : List (WEdge n)} {x y : Fin n}
    (h : minReach L x = minReach L y) : conn L x y :=
  conn_trans (conn_minReach L x) (h ▸ conn_symm (conn_minReach L y))

theorem minReach_eq_iff_conn {L : List (WEdge n)} {x y : Fin n} :
    minReach L x = minReach L y ↔ conn L x y :=
  ⟨conn_of_minReach_eq, minReach_eq_of_conn⟩

theorem minReach_idem (L : List (WEdge n)) (x : Fin n) :
    minReach L (minReach L x) = minReach L x :=
  (minReach_eq_of_conn (conn_minReach L x)).symm

theorem minReach_le (L : List (WEdge n)) {x y : Fin n} (h : conn L x y) :
    minReach L x ≤ y := by
  rw [minReach_eq_min']
  exact Finset.min'_le _ _ (mem_reachSet_of_conn h)

theorem minReach_le_self (L : List (WEdge n)) (x : Fin n) : minReach L x ≤ x :=
  minReach_le L (conn_refl L x)

/-- Number of connected components: the number of distinct leaf labels. -/
def numComps (L : List (WEdge n)) : ℕ :=
  (Finset.univ.image (minReach L)).card

theorem adjE_nil (x y : Fin n) : ¬ adjE ([] : List (WEdge n)) x y := by
  rintro ⟨e, he, _⟩
  simp at he

theorem conn_nil {x y : Fin n} (h : conn ([] : List (WEdge n)) x y) : x = y := by
  induction h with
  | refl => rfl
  | tail _ hadj _ => exact absurd hadj (adjE_nil _ _)

theorem minReach_nil (x : Fin n) : minReach ([] : List (WEdge n)) x = x := by
  have h1 : minReach ([] : List (WEdge n)) x ≤ x := minReach_le_self [] x
  have h2 : x = minReach ([] : List (WEdge n)) x := conn_nil (conn_minReach [] x)
  exact le_antisymm h1 (le_of_eq h2)

theorem numComps_nil : numComps ([] : List (WEdge n)) = n := by
  unfold numComps
  have : Finset.univ.image (minReach ([] : List (WEdge n))) = Finset.univ := by
    ext z
    simp only [Finset.mem_image, Finset.mem_univ, true_and, iff_true]
    exact ⟨z, minReach_nil z⟩
  rw [this, Finset.card_univ, Fintype.card_fin]

theorem minReach_unique {L : List (WEdge n)} {x m : Fin n} (h₁ : conn L x m)
    (h₂ : ∀ z, conn L x z → m ≤ z) : minReach L x = m := by
  have ha : minReach L x ≤ m := minReach_le L h₁
  have hb : m ≤ minReach L x := h₂ _ (conn_minReach L x)
  exact le_antisymm ha hb

theorem adjE_congr {L L' : List (WEdge n)} (h : ∀ e, e ∈ L ↔ e ∈ L') {x y : Fin n} :
    adjE L x y ↔ adjE L' x y := by
  unfold adjE
  constructor <;> rintro ⟨e, he, hor⟩
  · exact ⟨e, (h e).1 he, hor⟩
  · exact ⟨e, (h e).2 he, hor⟩

theorem conn_congr {L L' : List (WEdge n)} (h : ∀ e, e ∈ L ↔ e ∈ L') {x y : Fin n} :
    conn L x y ↔ conn L' x y := by
  constructor <;> intro hc
  · induction hc with
    | refl => exact conn_refl _ _
    | tail _ hadj ih => exact Relation.ReflTransGen.tail ih ((adjE_congr h).1 hadj)
  · induction hc with
    | refl => exact conn_refl _ _
    | tail _ hadj ih => exact Relation.ReflTransGen.tail ih ((adjE_congr h).2 hadj)

theorem minReach_congr {L L' : List (WEdge n)} (h : ∀ e, e ∈ L ↔ e ∈ L') (x : Fin n) :
    minReach L x = minReach L' x := by
  refine minReach_unique ?_ ?_
  · exact (conn_congr h).2 (conn_minReach L' x)
  · intro z hz
    exact minReach_le L' ((conn_congr h).1 hz)

theorem numComps_congr {L L' : List (WEdge n)} (h : ∀ e, e ∈ L ↔ e ∈ L') :
    numComps L = numComps L' := by
  unfold numComps
  congr 1
  exact Finset.image_congr fun x _ => minReach_congr h x

theorem conn_mono {L L' : List (WEdge n)} (h : ∀ e, e ∈ L → e ∈ L') {x y : Fin n}
    (hc : conn L x y) : conn L' x y := by
  induction hc with
  | refl => exact conn_refl _ _
  | tail _ hadj ih =>
      obtain ⟨e, he, hor⟩ := hadj
      exact Relation.ReflTransGen.tail ih ⟨e, h e he, hor⟩

theorem adjE_cons_iff {e : WEdge n} {L : List (WEdge n)} {x y : Fin n} :
    adjE (e :: L) x y ↔
      ((e.source = x ∧ e.target = y) ∨ (e.source = y ∧ e.target = x)) ∨ adjE L x y := by
  unfold adjE
  constructor
  · rintro ⟨f, hf, hor⟩
    rcases List.mem_cons.1 hf with rfl | hf
    · exact Or.inl hor
    · exact Or.inr ⟨f, hf, hor⟩
  · rintro (hor | ⟨f, hf, hor⟩)
    · exact ⟨e, List.mem_cons_self e L, hor⟩
    · exact ⟨f, List.mem_cons_of_mem e hf, hor⟩

/-- Adding one edge to the accumulated list merges exactly the two components
of its endpoints; connectivity in the extended graph decomposes accordingly. -/
theorem conn_cons_iff {e : WEdge n} {L : List (WEdge n)} {x y : Fin n} :
    conn (e :: L) x y ↔
      conn L x y ∨ (conn L x e.source ∧ conn L e.target y) ∨
        (conn L x e.target ∧ conn L e.source y) := by
  constructor
  · intro h
    induction h with
    | refl => exact Or.inl (conn_refl L x)
    | tail _ hadj ih =>
        rename_i b c _
        rcases adjE_cons_iff.1 hadj with (⟨hs, ht⟩ | ⟨hs, ht⟩) | hadj
        · -- step from `b = e.source` to `c = e.target`
          rcases ih with ih | ⟨ih₁, ih₂⟩ | ⟨ih₁, ih₂⟩
          · refine Or.inr (Or.inl ⟨?_, ?_⟩)
            · rw [hs]; exact ih
            · rw [ht]; exact conn_refl L c
          · refine Or.inr (Or.inl ⟨ih₁, ?_⟩)
            · rw [ht]; exact conn_refl L c
          · refine Or.inl (conn_trans ih₁ ?_)
            rw [ht]; exact conn_refl L c
        · -- step from `b = e.target` to `c = e.source`
          rcases ih with ih | ⟨ih₁, ih₂⟩ | ⟨ih₁, ih₂⟩
          · refine Or.inr (Or.inr ⟨?_, ?_⟩)
            · rw [ht]; exact ih
            · rw [hs]; exact conn_refl L c
          · refine Or.inl (conn_trans ih₁ ?_)
            rw [hs]; exact conn_refl L c
          · refine Or.inr (Or.inr ⟨ih₁, ?_⟩)
            · rw [hs]; exact conn_refl L c
        · rcases ih with ih | ⟨ih₁, ih₂⟩ | ⟨ih₁, ih₂⟩
          · exact Or.inl (conn_trans ih (conn_of_adjE hadj))
          · exact Or.inr (Or.inl ⟨ih₁, conn_trans ih₂ (conn_of_adjE hadj)⟩)
          · exact Or.inr (Or.inr ⟨ih₁, conn_trans ih₂ (conn_of_adjE hadj)⟩)
  · have hsub : ∀ a b : Fin n, conn L a b → conn (e :: L) a b :=
      fun a b => conn_mono fun f hf => List.mem_cons_of_mem e hf
    have hedge : conn (e :: L) e.source e.target :=
      conn_of_adjE ⟨e, List.mem_cons_self e L, Or.inl ⟨rfl, rfl⟩⟩
    rintro (h | ⟨h₁, h₂⟩ | ⟨h₁, h₂⟩)
    · exact hsub _ _ h
    · exact conn_trans (hsub _ _ h₁) (conn_trans hedge (hsub _ _ h₂))
    · exact conn_trans (hsub _ _ h₁) (conn_trans (conn_symm hedge) (hsub _ _ h₂))

/-- The label map after adding one edge: the two merged components both get the
smaller of the two previous labels; everything else is unchanged. -/
theorem minReach_cons (e : WEdge n) (L : List (WEdge n)) (x : Fin n) :
    minReach (e :: L) x =
      (fun c => if c = minReach L e.source ∨ c = minReach L e.target
        then min (minReach L e.source) (minReach L e.target) else c)
        (minReach L x) := by
  set a := minReach L e.source with ha
  set b := minReach L e.target with hb
  have hconnab : conn (e :: L) e.source e.target :=
    conn_of_adjE ⟨e, List.mem_cons_self e L, Or.inl ⟨rfl, rfl⟩⟩
  have hsub : ∀ u v : Fin n, conn L u v → conn (e :: L) u v :=
    fun u v => conn_mono fun f hf => List.mem_cons_of_mem e hf
  by_cases hx : minReach L x = a ∨ minReach L x = b
  · simp only [hx, if_pos]
    refine minReach_unique ?_ ?_
    · have hxa : conn (e :: L) x a ∨ conn (e :: L) x b := by
        rcases hx with hx | hx
        · exact Or.inl (hsub _ _ (hx ▸ conn_minReach L x))
        · exact Or.inr (hsub _ _ (hx ▸ conn_minReach L x))
      have hab : conn (e :: L) a b := by
        refine conn_trans (conn_symm (hsub _ _ (conn_minReach L e.source))) ?_
        exact conn_trans hconnab (hsub _ _ (conn_minReach L e.target))
      rcases le_total a b with hle | hle
      · rw [min_eq_left hle]
        rcases hxa with h | h
        · exact h
        · exact conn_trans h (conn_symm hab)
      · rw [min_eq_right hle]
        rcases hxa with h | h
        · exact conn_trans h hab
        · exact h
    · intro z hz
      have hzge : a ≤ z ∨ b ≤ z ∨ minReach L x ≤ z := by
        rcases conn_cons_iff.1 hz with h | ⟨h₁, h₂⟩ | ⟨h₁, h₂⟩
        · exact Or.inr (Or.inr (minReach_le L h))
        · refine Or.inr (Or.inl ?_)
          rw [hb]
          exact minReach_le L h₂
        · refine Or.inl ?_
          rw [ha]
          exact minReach_le L h₂
      rcases hzge with h | h | h
      · exact le_trans (min_le_left a b) h
      · exact le_trans (min_le_right a b) h
      · rcases hx with hx | hx
        · exact le_trans (min_le_left a b) (hx ▸ h)
        · exact le_trans (min_le_right a b) (hx ▸ h)
  · simp only [hx, if_neg]
    refine minReach_unique (hsub _ _ (conn_minReach L x)) ?_
    intro z hz
    rcases conn_cons_iff.1 hz with h | ⟨h₁, h₂⟩ | ⟨h₁, h₂⟩
    · exact minReach_le L h
    · exact absurd (Or.inl (minReach_eq_of_conn h₁)) hx
    · exact absurd (Or.inr (minReach_eq_of_conn h₁)) hx

theorem numComps_cons_of_conn {e : WEdge n} {L : List (WEdge n)}
    (h : conn L e.source e.target) : numComps (e :: L) = numComps L := by
  unfold numComps
  congr 1
  refine Finset.image_congr fun x _ => ?_
  have hab : minReach L e.source = minReach L e.target := minReach_eq_of_conn h
  rw [minReach_cons]
  simp only [← hab, min_self, or_self]
  by_cases hx : minReach L x = minReach L e.source
  · simp [hx]
  · simp [hx]

theorem numComps_cons_of_not_conn {e : WEdge n} {L : List (WEdge n)}
    (h : ¬ conn L e.source e.target) :
    numComps (e :: L) + 1 = numComps L := by
  classical
  unfold numComps
  set a := minReach L e.source with ha
  set b := minReach L e.target with hb
  have hab : a ≠ b := fun hcon => h (conn_of_minReach_eq (ha ▸ hb ▸ hcon))
  set f : Fin n → Fin n := fun c => if c = a ∨ c = b then min a b else c with hf
  have himg : Finset.univ.image (minReach (e :: L)) =
      (Finset.univ.image (minReach L)).image f := by
    rw [Finset.image_image]
    exact Finset.image_congr fun x _ => minReach_cons e L x
  rw [himg]
  have haS : a ∈ Finset.univ.image (minReach L) := by
    refine Finset.mem_image.2 ⟨e.source, Finset.mem_univ _, ?_⟩
    rw [ha]
  have hbS : b ∈ Finset.univ.image (minReach L) := by
    refine Finset.mem_image.2 ⟨e.target, Finset.mem_univ _, ?_⟩
    rw [hb]
  have hidem : ∀ c ∈ Finset.univ.image (minReach L), minReach L c = c := by
    intro c hc
    obtain ⟨x, _, rfl⟩ := Finset.mem_image.1 hc
    exact minReach_idem L x
  have hminmem : min a b ∈ Finset.univ.image (minReach L) := by
    rcases le_total a b with hle | hle
    · rw [min_eq_left hle]; exact haS
    · rw [min_eq_right hle]; exact hbS
  have hminmax : min a b ≠ max a b := by
    rcases le_total a b with hle | hle
    · rw [min_eq_left hle, max_eq_right hle]; exact hab
    · rw [min_eq_right hle, max_eq_left hle]; exact fun hcon => hab hcon.symm
  have hkey : (Finset.univ.image (minReach L)).image f =
      (Finset.univ.image (minReach L)).erase (max a b) := by
    ext z
    constructor
    · intro hz
      obtain ⟨c, hc, rfl⟩ := Finset.mem_image.1 hz
      simp only [hf]
      by_cases hcase : c = a ∨ c = b
      · rw [if_pos hcase]
        exact Finset.mem_erase.2 ⟨hminmax, hminmem⟩
      · rw [if_neg hcase]
        push_neg at hcase
        refine Finset.mem_erase.2 ⟨?_, hc⟩
        intro hcon
        rcases le_total a b with hle | hle
        · exact hcase.2 (hcon.trans (max_eq_right hle))
        · exact hcase.1 (hcon.trans (max_eq_left hle))
    · intro hz
      obtain ⟨hzmax, hz⟩ := Finset.mem_erase.1 hz
      by_cases hcase : z = a ∨ z = b
      · refine Finset.mem_image.2 ⟨max a b, ?_, ?_⟩
        · rcases le_total a b with hle | hle
          · rw [max_eq_right hle]; exact hbS
          · rw [max_eq_left hle]; exact haS
        · simp only [hf]
          have hmaxab : max a b = a ∨ max a b = b := by
            rcases le_total a b with hle | hle
            · exact Or.inr (max_eq_right hle)
            · exact Or.inl (max_eq_left hle)
          rw [if_pos hmaxab]
          rcases hcase with hza | hzb
          · rw [hza]
            rcases le_total a b with hle | hle
            · exact min_eq_left hle
            · exact absurd (by rw [hza, max_eq_left hle]) hzmax
          · rw [hzb]
            rcases le_total a b with hle | hle
            · exact absurd (by rw [hzb, max_eq_right hle]) hzmax
            · exact min_eq_right hle
      · refine Finset.mem_image.2 ⟨z, hz, ?_⟩
        simp only [hf]
        rw [if_neg hcase]
  rw [hkey, Finset.card_erase_of_mem]
  · have hpos : 0 < (Finset.univ.image (minReach L)).card :=
      Finset.card_pos.2 ⟨a, haS⟩
    omega
  · rcases le_total a b with hle | hle
    · rw [max_eq_right hle]; exact hbS
    · rw [max_eq_left hle]; exact haS

theorem numComps_cons_le (e : WEdge n) (L : List (WEdge n)) :
    numComps L ≤ numComps (e :: L) + 1 := by
  by_cases h : conn L e.source e.target
  · rw [numComps_cons_of_conn h]; omega
  · rw [← numComps_cons_of_not_conn h]

/-- A graph on `n` vertices with `m` edges has at least `n - m` components. -/
theorem numComps_ge (L : List (WEdge n)) : n ≤ numComps L + L.length := by
  induction L with
  | nil => rw [numComps_nil]; omega
  | cons e L ih =>
      have := numComps_cons_le e L
      simp only [List.length_cons]
      omega

/-! ### The per-round component nearest-neighbor search

`Details::FindComponentNearestNeighbors` is not part of the repository
snapshot.  Modelled from the spec (§4.5): for every component `c`, the
round computes the directed edge of minimum weight with exactly one
endpoint in `c`, where ties are broken by the total order
(weight, min endpoint, max endpoint). -/

/-- The total tie-breaking order on directed candidate edges (§4.5):
(weight, min endpoint, max endpoint), lexicographically. -/
def edgeKey (d : Fin n → Fin n → ℚ) (p : Fin n × Fin n) : ℚ ×ₗ (Fin n ×ₗ Fin n) :=
  toLex (d p.1 p.2, toLex (min p.1 p.2, max p.1 p.2))

/-- Directed candidate edges leaving component `c`: source labelled `c`,
target labelled differently. -/
def candList (ℓ : Fin n → Fin n) (c : Fin n) : List (Fin n × Fin n) :=
  ((List.finRange n).product (List.finRange n)).filter
    (fun p => decide (ℓ p.1 = c ∧ ℓ p.2 ≠ c))

theorem mem_candList {ℓ : Fin n → Fin n} {c : Fin n} {p : Fin n × Fin n} :
    p ∈ candList ℓ c ↔ ℓ p.1 = c ∧ ℓ p.2 ≠ c := by
  unfold candList
  rw [List.mem_filter]
  simp only [decide_eq_true_eq]
  constructor
  · rintro ⟨_, h⟩; exact h
  · intro h
    refine ⟨?_, h⟩
    have : (p.1, p.2) ∈ (List.finRange n).product (List.finRange n) :=
      List.pair_mem_product.2 ⟨List.mem_finRange p.1, List.mem_finRange p.2⟩
    simpa using this

/-- Modelled from the spec (§4.5): the winner of component `c`, i.e. the
candidate minimizing the tie-breaking order.  `none` when `c` has no
out-going candidate (in particular when `c` is not a component label). -/
def winner (d : Fin n → Fin n → ℚ) (ℓ : Fin n → Fin n) (c : Fin n) :
    Option (Fin n × Fin n) :=
  (candList ℓ c).argmin (edgeKey d)

theorem winner_mem_cand {d : Fin n → Fin n → ℚ} {ℓ : Fin n → Fin n} {c : Fin n}
    {p : Fin n × Fin n} (h : winner d ℓ c = some p) : ℓ p.1 = c ∧ ℓ p.2 ≠ c :=
  mem_candList.1 (List.argmin_mem (Option.mem_def.2 h))

theorem winner_min {d : Fin n → Fin n → ℚ} {ℓ : Fin n → Fin n} {c : Fin n}
    {p q : Fin n × Fin n} (h : winner d ℓ c = some p) (hq1 : ℓ q.1 = c)
    (hq2 : ℓ q.2 ≠ c) : edgeKey d p ≤ edgeKey d q :=
  List.le_of_mem_argmin (mem_candList.2 ⟨hq1, hq2⟩) (Option.mem_def.2 h)

theorem winner_some {d : Fin n → Fin n → ℚ} {ℓ : Fin n → Fin n} {c u w : Fin n}
    (hu : ℓ u = c) (hw : ℓ w ≠ c) : ∃ p, winner d ℓ c = some p := by
  have hmem : (u, w) ∈ candList ℓ c := mem_candList.2 ⟨hu, hw⟩
  cases hwin : winner d ℓ c with
  | some p => exact ⟨p, rfl⟩
  | none =>
      exfalso
      have := List.argmin_eq_none.1 hwin
      rw [this] at hmem
      exact List.not_mem_nil _ hmem

/-- In a linear order, equal min and max determine the unordered pair. -/
theorem min_max_pair_eq {α : Type} [LinearOrder α] {a b c e : α}
    (hmin : min a b = min c e) (hmax : max a b = max c e) :
    (a = c ∧ b = e) ∨ (a = e ∧ b = c) := by
  rcases le_total a b with hab | hab <;> rcases le_total c e with hce | hce
  · rw [min_eq_left hab, min_eq_left hce] at hmin
    rw [max_eq_right hab, max_eq_right hce] at hmax
    exact Or.inl ⟨hmin, hmax⟩
  · rw [min_eq_left hab, min_eq_right hce] at hmin
    rw [max_eq_right hab, max_eq_left hce] at hmax
    exact Or.inr ⟨hmin, hmax⟩
  · rw [min_eq_right hab, min_eq_left hce] at hmin
    rw [max_eq_left hab, max_eq_right hce] at hmax
    exact Or.inr ⟨hmax, hmin⟩
  · rw [min_eq_right hab, min_eq_right hce] at hmin
    rw [max_eq_left hab, max_eq_left hce] at hmax
    exact Or.inl ⟨hmax, hmin⟩

theorem edgeKey_eq_iff {d : Fin n → Fin n → ℚ} {p q : Fin n × Fin n}
    (h : edgeKey d p = edgeKey d q) :
    (p.1 = q.1 ∧ p.2 = q.2) ∨ (p.1 = q.2 ∧ p.2 = q.1) := by
  unfold edgeKey at h
  have h2 := congrArg ofLex h
  have hw : d p.1 p.2 = d q.1 q.2 := congrArg Prod.fst h2
  have hmm := congrArg Prod.snd h2
  have h3 := congrArg ofLex hmm
  have hmin : min p.1 p.2 = min q.1 q.2 := congrArg Prod.fst h3
  have hmax : max p.1 p.2 = max q.1 q.2 := congrArg Prod.snd h3
  exact min_max_pair_eq hmin hmax

/-- Keys are injective on the candidate list of a fixed component: distinct
candidates never compare equal (§4.5 tie-breaking determinism). -/
theorem winner_cand_key_inj {d : Fin n → Fin n → ℚ} {ℓ : Fin n → Fin n} {c : Fin n}
    {p q : Fin n × Fin n} (hp : ℓ p.1 = c ∧ ℓ p.2 ≠ c) (hq : ℓ q.1 = c ∧ ℓ q.2 ≠ c)
    (h : edgeKey d p = edgeKey d q) : p = q := by
  rcases edgeKey_eq_iff h with ⟨h1, h2⟩ | ⟨h1, h2⟩
  · exact Prod.ext h1 h2
  · exfalso
    apply hq.2
    rw [← h1]
    exact hp.1

theorem edgeKey_flip {d : Fin n → Fin n → ℚ} (hd : ∀ i j, d i j = d j i)
    (p : Fin n × Fin n) : edgeKey d (p.2, p.1) = edgeKey d p := by
  unfold edgeKey
  simp only [hd p.2 p.1, min_comm p.2 p.1, max_comm p.2 p.1]

/-! ### The component-level merge graph of one Borůvka round -/

/-- The current set of component labels. -/
def compSet (ℓ : Fin n → Fin n) : Finset (Fin n) := Finset.univ.image ℓ

/-- The component that the winner of `c` merges into (the label of the
winner's target); `c` itself when `c` has no winner. -/
def tnext (d : Fin n → Fin n → ℚ) (ℓ : Fin n → Fin n) (c : Fin n) : Fin n :=
  match winner d ℓ c with
  | some p => ℓ p.2
  | none => c

/-- Modelled from the spec (§4.6): component `c` emits its winner `(u, w)`
unless the winners of `c` and of `w`'s component form a mutual pair and `c`
is the larger id, in which case the smaller component alone emits. -/
def emitEdge (d : Fin n → Fin n → ℚ) (ℓ : Fin n → Fin n) (c : Fin n) :
    Option (WEdge n) :=
  match winner d ℓ c with
  | some (u, w) =>
      if c < ℓ w ∨ ¬ (winner d ℓ (ℓ w) = some (w, u)) then some ⟨u, w, d u w⟩
      else none
  | none => none

/-- The edges appended to the global edge array in one round, with the
components visited in the order `ord` (the parallel emission order). -/
def roundList (d : Fin n → Fin n → ℚ) (ℓ : Fin n → Fin n) (ord : List (Fin n)) :
    List (WEdge n) :=
  ord.filterMap (emitEdge d ℓ)

section RoundLemmas

variable {d : Fin n → Fin n → ℚ} {ℓ : Fin n → Fin n}

theorem mem_compSet_iff {c : Fin n} : c ∈ compSet ℓ ↔ ∃ u, ℓ u = c := by
  unfold compSet
  simp [Finset.mem_image]

theorem ell_mem_compSet (x : Fin n) : ℓ x ∈ compSet ℓ :=
  mem_compSet_iff.2 ⟨x, rfl⟩

theorem exists_out (h2 : 2 ≤ (compSet ℓ).card) (c : Fin n) : ∃ w, ℓ w ≠ c := by
  obtain ⟨a, ha, b, hb, hab⟩ := Finset.one_lt_card.1 h2
  rcases eq_or_ne a c with rfl | hac
  · obtain ⟨w, hw⟩ := mem_compSet_iff.1 hb
    exact ⟨w, hw ▸ hab.symm⟩
  · obtain ⟨w, hw⟩ := mem_compSet_iff.1 ha
    exact ⟨w, hw ▸ hac⟩

theorem winner_some_of_mem (h2 : 2 ≤ (compSet ℓ).card) {c : Fin n}
    (hc : c ∈ compSet ℓ) : ∃ p, winner d ℓ c = some p := by
  obtain ⟨u, hu⟩ := mem_compSet_iff.1 hc
  obtain ⟨w, hw⟩ := exists_out h2 c
  exact winner_some hu hw

theorem winner_none_of_not_mem {c : Fin n} (hc : c ∉ compSet ℓ) :
    winner d ℓ c = none := by
  cases hwin : winner d ℓ c with
  | none => rfl
  | some p =>
      exact absurd (mem_compSet_iff.2 ⟨p.1, (winner_mem_cand hwin).1⟩) hc

theorem tnext_eq_of_winner {c : Fin n} {p : Fin n × Fin n}
    (h : winner d ℓ c = some p) : tnext d ℓ c = ℓ p.2 := by
  unfold tnext
  rw [h]

theorem tnext_mem (hc : c ∈ compSet ℓ) : tnext d ℓ c ∈ compSet ℓ := by
  unfold tnext
  cases hwin : winner d ℓ c with
  | none => exact hc
  | some p => exact ell_mem_compSet p.2

theorem tnext_ne (h2 : 2 ≤ (compSet ℓ).card) {c : Fin n} (hc : c ∈ compSet ℓ) :
    tnext d ℓ c ≠ c := by
  obtain ⟨p, hp⟩ := winner_some_of_mem (d := d) h2 hc
  unfold tnext
  rw [hp]
  exact (winner_mem_cand hp).2

theorem tnext_iterate_mem (hc : c ∈ compSet ℓ) (i : ℕ) :
    (tnext d ℓ)^[i] c ∈ compSet ℓ := by
  induction i with
  | zero => exact hc
  | succ i ih =>
      rw [Function.iterate_succ_apply']
      exact tnext_mem ih

/-- The winner key is non-increasing along the merge-target map, and stalls
only on a mutual pair: the reversal of `c`'s winner is a candidate for the
target component, so the target's winner is no larger; if it is equal, by
injectivity of the tie-breaking key it *is* the reversed edge. -/
theorem winner_key_step (hd : ∀ i j, d i j = d j i) {c : Fin n}
    {p : Fin n × Fin n} (hp : winner d ℓ c = some p) :
    ∃ q, winner d ℓ (tnext d ℓ c) = some q ∧ edgeKey d q ≤ edgeKey d p ∧
      (edgeKey d q = edgeKey d p → q = (p.2, p.1)) := by
  obtain ⟨hp1, hp2⟩ := winner_mem_cand hp
  have htn : tnext d ℓ c = ℓ p.2 := tnext_eq_of_winner hp
  have hcand1 : ℓ (p.2, p.1).1 = ℓ p.2 := rfl
  have hcand2 : ℓ (p.2, p.1).2 ≠ ℓ p.2 := by
    intro hcon
    exact hp2 (by rw [← hp1, hcon])
  obtain ⟨q, hq⟩ := winner_some (d := d) hcand1 hcand2
  refine ⟨q, by rw [htn]; exact hq, ?_, ?_⟩
  · have := winner_min hq hcand1 hcand2
    rwa [edgeKey_flip hd] at this
  · intro heq
    have hqc := winner_mem_cand hq
    have : edgeKey d q = edgeKey d (p.2, p.1) := by
      rw [heq, edgeKey_flip hd]
    exact winner_cand_key_inj hqc ⟨hcand1, hcand2⟩ this

/-- `c` and its target form a mutual pair exactly when following the
merge-target map twice returns to `c`. -/
theorem mutual_iff (hd : ∀ i j, d i j = d j i) (h2 : 2 ≤ (compSet ℓ).card)
    {c : Fin n} (hc : c ∈ compSet ℓ) :
    tnext d ℓ (tnext d ℓ c) = c ↔
      (∃ u w, winner d ℓ c = some (u, w) ∧ winner d ℓ (ℓ w) = some (w, u)) := by
  constructor
  · intro hcyc
    obtain ⟨p, hp⟩ := winner_some_of_mem (d := d) h2 hc
    obtain ⟨q, hq, hle, heqcase⟩ := winner_key_step hd hp
    have htc : tnext d ℓ c = ℓ p.2 := tnext_eq_of_winner hp
    have hq2 : tnext d ℓ (tnext d ℓ c) = ℓ q.2 := tnext_eq_of_winner hq
    -- the reversal of q is a candidate for c
    have hqc := winner_mem_cand hq
    have hrev1 : ℓ (q.2, q.1).1 = c := by
      rw [← hcyc, hq2]
    have hrev2 : ℓ (q.2, q.1).2 ≠ c := by
      have : ℓ q.1 = tnext d ℓ c := hqc.1
      rw [this]
      exact tnext_ne h2 hc
    have hge : edgeKey d p ≤ edgeKey d q := by
      have := winner_min hp hrev1 hrev2
      rwa [edgeKey_flip hd] at this
    have heq : edgeKey d q = edgeKey d p := le_antisymm hle hge
    have hflip : q = (p.2, p.1) := heqcase heq
    refine ⟨p.1, p.2, by rw [← hp], ?_⟩
    have : winner d ℓ (ℓ p.2) = some q := by rwa [htc] at hq
    rw [this, hflip]
  · rintro ⟨u, w, hp, hq⟩
    have htc : tnext d ℓ c = ℓ w := tnext_eq_of_winner hp
    have hq2 : tnext d ℓ (ℓ w) = ℓ u := tnext_eq_of_winner hq
    rw [htc, hq2]
    exact (winner_mem_cand hp).1

/-- Along any directed cycle of the merge-target map the winner keys are all
equal, so every cycle is a mutual pair: a 2-cycle. -/
theorem cycle_is_two (hd : ∀ i j, d i j = d j i) (h2 : 2 ≤ (compSet ℓ).card)
    {x : Fin n} (hx : x ∈ compSet ℓ) {m : ℕ} (hm : 1 ≤ m)
    (hcyc : (tnext d ℓ)^[m] x = x) : tnext d ℓ (tnext d ℓ x) = x := by
  classical
  set T := tnext d ℓ with hT
  have hmem : ∀ i, T^[i] x ∈ compSet ℓ := fun i => tnext_iterate_mem hx i
  have hwin : ∀ i : ℕ, ∃ p, winner d ℓ (T^[i] x) = some p :=
    fun i => winner_some_of_mem h2 (hmem i)
  set P : ℕ → Fin n × Fin n := fun i => Classical.choose (hwin i) with hP
  have hPs : ∀ i, winner d ℓ (T^[i] x) = some (P i) := fun i => Classical.choose_spec (hwin i)
  have hstep : ∀ i, edgeKey d (P (i + 1)) ≤ edgeKey d (P i) ∧
      (edgeKey d (P (i + 1)) = edgeKey d (P i) → P (i + 1) = ((P i).2, (P i).1)) := by
    intro i
    obtain ⟨q, hq, hle, heq⟩ := winner_key_step hd (hPs i)
    have hqeq : q = P (i + 1) := by
      have h1 : winner d ℓ (T^[i + 1] x) = some q := by
        rw [Function.iterate_succ_apply']
        exact hq
      have h2' := hPs (i + 1)
      rw [h1] at h2'
      exact Option.some.inj h2'
    rw [← hqeq]
    exact ⟨hle, heq⟩
  have hdec : ∀ i j, i ≤ j → edgeKey d (P j) ≤ edgeKey d (P i) := by
    intro i j hij
    induction j with
    | zero =>
        have : i = 0 := by omega
        rw [this]
    | succ j ih =>
        rcases Nat.lt_or_ge i (j + 1) with h | h
        · exact le_trans (hstep j).1 (ih (by omega))
        · have : i = j + 1 := by omega
          rw [this]
  have hPm : P m = P 0 := by
    have h1 := hPs m
    have h2' := hPs 0
    rw [hcyc] at h1
    rw [Function.iterate_zero_apply] at h2'
    rw [h1] at h2'
    exact Option.some.inj h2'
  have hall : edgeKey d (P 1) = edgeKey d (P 0) := by
    have ha : edgeKey d (P 1) ≤ edgeKey d (P 0) := hdec 0 1 (by omega)
    have hb : edgeKey d (P 0) ≤ edgeKey d (P 1) := by
      have hmb := hdec 1 m hm
      rwa [hPm] at hmb
    exact le_antisymm ha hb
  have hflip : P 1 = ((P 0).2, (P 0).1) := (hstep 0).2 hall
  -- now compute T (T x)
  have h0 := hPs 0
  rw [Function.iterate_zero_apply] at h0
  have h1 := hPs 1
  have hTx : T^[1] x = T x := congrFun (Function.iterate_one T) x
  rw [hTx] at h1
  have hTTx : T (T x) = ℓ (P 1).2 := by
    rw [hT]
    exact tnext_eq_of_winner h1
  rw [hTTx, hflip]
  exact (winner_mem_cand h0).1

/-- Every orbit of the merge-target map reaches a 2-cycle within `n` steps. -/
theorem exists_cyclic (hd : ∀ i j, d i j = d j i) (h2 : 2 ≤ (compSet ℓ).card)
    {x : Fin n} (hx : x ∈ compSet ℓ) :
    ∃ i ≤ n, tnext d ℓ (tnext d ℓ ((tnext d ℓ)^[i] x)) = (tnext d ℓ)^[i] x := by
  classical
  set T := tnext d ℓ with hT
  have hpos : 0 < n := by
    rcases Nat.eq_zero_or_pos n with rfl | h
    · exact absurd x.2 (by omega)
    · exact h
  have hnotinj : ¬ Function.Injective (fun k : Fin (n + 1) => T^[(k : ℕ)] x) := by
    intro hinj
    have := Fintype.card_le_of_injective _ hinj
    simp only [Fintype.card_fin] at this
    omega
  rw [Function.not_injective_iff] at hnotinj
  obtain ⟨a, b, hab, hne⟩ := hnotinj
  -- order them
  rcases Nat.lt_or_ge (a : ℕ) (b : ℕ) with hlt | hge
  · have hcyc : T^[(b : ℕ) - (a : ℕ)] (T^[(a : ℕ)] x) = T^[(a : ℕ)] x := by
      rw [← Function.iterate_add_apply]
      have : (b : ℕ) - (a : ℕ) + (a : ℕ) = (b : ℕ) := by omega
      rw [this]
      exact hab.symm
    refine ⟨(a : ℕ), by omega, ?_⟩
    exact cycle_is_two hd h2 (tnext_iterate_mem hx _) (by omega) hcyc
  · have hlt : (b : ℕ) < (a : ℕ) := by
      rcases Nat.lt_or_ge (b : ℕ) (a : ℕ) with h | h
      · exact h
      · exact absurd (Fin.ext (by omega)) hne
    have hcyc : T^[(a : ℕ) - (b : ℕ)] (T^[(b : ℕ)] x) = T^[(b : ℕ)] x := by
      rw [← Function.iterate_add_apply]
      have : (a : ℕ) - (b : ℕ) + (b : ℕ) = (a : ℕ) := by omega
      rw [this]
      exact hab
    refine ⟨(b : ℕ), by omega, ?_⟩
    exact cycle_is_two hd h2 (tnext_iterate_mem hx _) (by omega) hcyc

/-- Once on a 2-cycle, two more steps change nothing. -/
theorem iterate_two_stable {T : Fin n → Fin n} {y : Fin n} (hy : T (T y) = y) :
    ∀ k, T^[k + 2] y = T^[k] y := by
  intro k
  induction k with
  | zero => exact hy
  | succ k ih =>
      have h3 : k + 1 + 2 = (k + 2) + 1 := by omega
      calc T^[k + 1 + 2] y
          = T (T^[k + 2] y) := by
            rw [h3, Function.iterate_succ_apply' T (k + 2) y]
        _ = T (T^[k] y) := by rw [ih]
        _ = T^[k + 1] y := (Function.iterate_succ_apply' T k y).symm

/-- Stability of the orbit beyond the cycle-entry index. -/
theorem iterate_stable_ge {T : Fin n → Fin n} {x : Fin n} {m : ℕ}
    (hm : T (T (T^[m] x)) = T^[m] x) {i : ℕ} (hi : m ≤ i) :
    T^[i + 2] x = T^[i] x := by
  have h1 : T^[i] x = T^[i - m] (T^[m] x) := by
    rw [← Function.iterate_add_apply]
    congr 1
    omega
  have h2 : T^[i + 2] x = T^[(i - m) + 2] (T^[m] x) := by
    rw [← Function.iterate_add_apply]
    congr 1
    omega
  rw [h1, h2]
  exact iterate_two_stable hm (i - m)

/-- The canonical representative of the merged component that `c` flows
into: the smaller element of the 2-cycle its orbit reaches.  (The union
step of §4.6 canonicalizes merged components by minimum id; at the
component level, the merged group of a round is the weakly-connected
component of the winner graph, whose unique cycle is a mutual pair.) -/
def anchor (d : Fin n → Fin n → ℚ) (ℓ : Fin n → Fin n) (c : Fin n) : Fin n :=
  min ((tnext d ℓ)^[2 * n] c) ((tnext d ℓ)^[2 * n + 1] c)

section AnchorLemmas

variable {d : Fin n → Fin n → ℚ} {ℓ : Fin n → Fin n}

theorem anchor_tnext (hd : ∀ i j, d i j = d j i) (h2 : 2 ≤ (compSet ℓ).card)
    {c : Fin n} (hc : c ∈ compSet ℓ) :
    anchor d ℓ (tnext d ℓ c) = anchor d ℓ c := by
  obtain ⟨m, hm, hcyc⟩ := exists_cyclic hd h2 hc
  unfold anchor
  have h1 : (tnext d ℓ)^[2 * n] (tnext d ℓ c) = (tnext d ℓ)^[2 * n + 1] c :=
    (Function.iterate_succ_apply (tnext d ℓ) (2 * n) c).symm
  have h2' : (tnext d ℓ)^[2 * n + 1] (tnext d ℓ c) = (tnext d ℓ)^[2 * n] c := by
    have hb : (tnext d ℓ)^[2 * n + 1] (tnext d ℓ c) = (tnext d ℓ)^[2 * n + 2] c :=
      (Function.iterate_succ_apply (tnext d ℓ) (2 * n + 1) c).symm
    rw [hb]
    exact iterate_stable_ge hcyc (by omega)
  rw [h1, h2', min_comm]

theorem anchor_cyclic (hd : ∀ i j, d i j = d j i) (h2 : 2 ≤ (compSet ℓ).card)
    {c : Fin n} (hc : c ∈ compSet ℓ) :
    tnext d ℓ (tnext d ℓ (anchor d ℓ c)) = anchor d ℓ c := by
  obtain ⟨m, hm, hcyc⟩ := exists_cyclic hd h2 hc
  set T := tnext d ℓ with hT
  set a := T^[2 * n] c with ha
  have hTa : T a = T^[2 * n + 1] c := by
    rw [ha]
    exact (Function.iterate_succ_apply' T (2 * n) c).symm
  have hcyca : T (T a) = a := by
    rw [ha]
    have hb : T (T (T^[2 * n] c)) = T^[2 * n + 2] c := by
      rw [Function.iterate_succ_apply' T (2 * n + 1) c,
        Function.iterate_succ_apply' T (2 * n) c]
    rw [hb]
    exact iterate_stable_ge hcyc (by omega)
  unfold anchor
  rw [← hT, ← ha, ← hTa]
  rcases le_total a (T a) with hle | hle
  · rw [min_eq_left hle]
    exact hcyca
  · rw [min_eq_right hle]
    rw [hcyca]

theorem anchor_mem (hc : c ∈ compSet ℓ) : anchor d ℓ c ∈ compSet ℓ := by
  unfold anchor
  rcases le_total ((tnext d ℓ)^[2 * n] c) ((tnext d ℓ)^[2 * n + 1] c) with hle | hle
  · rw [min_eq_left hle]
    exact tnext_iterate_mem hc _
  · rw [min_eq_right hle]
    exact tnext_iterate_mem hc _

theorem anchor_lt_tnext (hd : ∀ i j, d i j = d j i) (h2 : 2 ≤ (compSet ℓ).card)
    {c : Fin n} (hc : c ∈ compSet ℓ) :
    anchor d ℓ c < tnext d ℓ (anchor d ℓ c) := by
  obtain ⟨m, hm, hcyc⟩ := exists_cyclic hd h2 hc
  set T := tnext d ℓ with hT
  set a := T^[2 * n] c with ha
  have hTa : T a = T^[2 * n + 1] c := by
    rw [ha]
    exact (Function.iterate_succ_apply' T (2 * n) c).symm
  have hcyca : T (T a) = a := by
    rw [ha]
    have hb : T (T (T^[2 * n] c)) = T^[2 * n + 2] c := by
      rw [Function.iterate_succ_apply' T (2 * n + 1) c,
        Function.iterate_succ_apply' T (2 * n) c]
    rw [hb]
    exact iterate_stable_ge hcyc (by omega)
  have hamem : a ∈ compSet ℓ := tnext_iterate_mem hc _
  have hTamem : T a ∈ compSet ℓ := tnext_mem hamem
  have hne : T a ≠ a := tnext_ne h2 hamem
  have hanchor : anchor d ℓ c = min a (T a) := by
    unfold anchor
    rw [← hT, ← ha, ← hTa]
  rcases lt_or_gt_of_ne hne with hlt | hlt
  · rw [hanchor, min_eq_right (le_of_lt hlt)]
    rw [hcyca]
    exact hlt
  · rw [hanchor, min_eq_left (le_of_lt hlt)]
    exact hlt

/-- Iterating an even number of steps on a 2-cycle point is the identity. -/
theorem iterate_even_cycle {T : Fin n → Fin n} {y : Fin n} (hy : T (T y) = y)
    (k : ℕ) : T^[2 * k] y = y := by
  induction k with
  | zero => rfl
  | succ k ih =>
      have : 2 * (k + 1) = 2 * k + 2 := by omega
      rw [this, iterate_two_stable hy, ih]

theorem anchor_of_cyclic_min
    {a : Fin n} (hcyc : tnext d ℓ (tnext d ℓ a) = a) (hlt : a < tnext d ℓ a) :
    anchor d ℓ a = a := by
  unfold anchor
  have h1 : (tnext d ℓ)^[2 * n] a = a := iterate_even_cycle hcyc n
  have h2 : (tnext d ℓ)^[2 * n + 1] a = tnext d ℓ a := by
    rw [Function.iterate_succ_apply', h1]
  rw [h1, h2]
  exact min_eq_left (le_of_lt hlt)

theorem anchor_fixed (hd : ∀ i j, d i j = d j i) (h2 : 2 ≤ (compSet ℓ).card)
    {c : Fin n} (hc : c ∈ compSet ℓ) :
    anchor d ℓ (anchor d ℓ c) = anchor d ℓ c :=
  anchor_of_cyclic_min (anchor_cyclic hd h2 hc) (anchor_lt_tnext hd h2 hc)

theorem anchor_iterate (hd : ∀ i j, d i j = d j i) (h2 : 2 ≤ (compSet ℓ).card)
    {c : Fin n} (hc : c ∈ compSet ℓ) (i : ℕ) :
    anchor d ℓ ((tnext d ℓ)^[i] c) = anchor d ℓ c := by
  induction i with
  | zero => rfl
  | succ i ih =>
      rw [Function.iterate_succ_apply', anchor_tnext hd h2 (tnext_iterate_mem hc i), ih]

end AnchorLemmas

theorem emitEdge_eq_of_winner {c u w : Fin n}
    (h : winner d ℓ c = some (u, w)) :
    emitEdge d ℓ c =
      if c < ℓ w ∨ ¬ (winner d ℓ (ℓ w) = some (w, u)) then some ⟨u, w, d u w⟩
      else none := by
  unfold emitEdge
  rw [h]

theorem emitEdge_eq_of_no_winner {c : Fin n}
    (h : winner d ℓ c = none) : emitEdge d ℓ c = none := by
  unfold emitEdge
  rw [h]

theorem emitEdge_some_spec {c : Fin n} {e : WEdge n}
    (h : emitEdge d ℓ c = some e) :
    ∃ u w, winner d ℓ c = some (u, w) ∧ e = ⟨u, w, d u w⟩ := by
  cases hwin : winner d ℓ c with
  | none => rw [emitEdge_eq_of_no_winner hwin] at h; exact absurd h (by simp)
  | some p =>
      obtain ⟨u, w⟩ := p
      rw [emitEdge_eq_of_winner hwin] at h
      by_cases hcond : c < ℓ w ∨ ¬ (winner d ℓ (ℓ w) = some (w, u))
      · rw [if_pos hcond] at h
        exact ⟨u, w, rfl, (Option.some.inj h).symm⟩
      · rw [if_neg hcond] at h
        exact absurd h (by simp)

theorem emitEdge_none_of_not_mem {c : Fin n} (hc : c ∉ compSet ℓ) :
    emitEdge d ℓ c = none :=
  emitEdge_eq_of_no_winner (winner_none_of_not_mem hc)

theorem emitEdge_none_iff (hd : ∀ i j, d i j = d j i) (h2 : 2 ≤ (compSet ℓ).card)
    {c : Fin n} (hc : c ∈ compSet ℓ) :
    emitEdge d ℓ c = none ↔
      (tnext d ℓ (tnext d ℓ c) = c ∧ tnext d ℓ c < c) := by
  obtain ⟨p, hp⟩ := winner_some_of_mem (d := d) h2 hc
  obtain ⟨u, w⟩ := p
  have htc : tnext d ℓ c = ℓ w := tnext_eq_of_winner hp
  have hwne : ℓ w ≠ c := (winner_mem_cand hp).2
  constructor
  · intro hnone
    rw [emitEdge_eq_of_winner hp] at hnone
    by_cases hcond : c < ℓ w ∨ ¬ (winner d ℓ (ℓ w) = some (w, u))
    · rw [if_pos hcond] at hnone
      exact absurd hnone (by simp)
    · push_neg at hcond
      obtain ⟨hlt, hmut⟩ := hcond
      constructor
      · exact (mutual_iff hd h2 hc).2 ⟨u, w, hp, hmut⟩
      · rw [htc]
        rcases lt_or_gt_of_ne hwne with h | h
        · exact h
        · exact absurd h (not_lt.2 hlt)
  · rintro ⟨hcyc, hlt⟩
    obtain ⟨u2, w2, hp2, hmut2⟩ := (mutual_iff hd h2 hc).1 hcyc
    rw [hp] at hp2
    obtain ⟨hu2, hw2⟩ : u = u2 ∧ w = w2 := by
      have := Option.some.inj hp2
      exact ⟨congrArg Prod.fst this, congrArg Prod.snd this⟩
    rw [emitEdge_eq_of_winner hp, if_neg]
    push_neg
    constructor
    · rw [← htc]
      exact le_of_lt hlt
    · rw [hu2, hw2]
      exact hmut2

/-- If `c` is the non-emitting half of a mutual pair, its partner emits the
shared edge (with the reversed orientation). -/
theorem mutual_partner_emits (hd : ∀ i j, d i j = d j i)
    (h2 : 2 ≤ (compSet ℓ).card) {c : Fin n} (hc : c ∈ compSet ℓ)
    (hnone : emitEdge d ℓ c = none) :
    ∃ u w, winner d ℓ c = some (u, w) ∧
      emitEdge d ℓ (tnext d ℓ c) = some ⟨w, u, d w u⟩ := by
  obtain ⟨hcyc, hlt⟩ := (emitEdge_none_iff hd h2 hc).1 hnone
  obtain ⟨u, w, hp, hmut⟩ := (mutual_iff hd h2 hc).1 hcyc
  have htc : tnext d ℓ c = ℓ w := tnext_eq_of_winner hp
  have hu : ℓ u = c := (winner_mem_cand hp).1
  refine ⟨u, w, hp, ?_⟩
  rw [htc]
  rw [emitEdge_eq_of_winner hmut, if_pos]
  left
  rw [hu, ← htc]
  exact hlt

theorem mem_roundList_iff {ord : List (Fin n)} {e : WEdge n} :
    e ∈ roundList d ℓ ord ↔ ∃ c ∈ ord, emitEdge d ℓ c = some e := by
  unfold roundList
  rw [List.mem_filterMap]

end RoundLemmas

/-! ### Connectivity and counting across one round

Throughout, the leaf labels before the round are `minReach L`.  The key
result: after appending one round of emitted edges, two leaves are
connected exactly when their components flow to the same anchor
(the merge groups of §4.6), and the number of emitted edges equals the
decrease in the number of components. -/

section RoundConn

variable {d : Fin n → Fin n → ℚ} {L : List (WEdge n)}

theorem numComps_eq_card_compSet (L : List (WEdge n)) :
    numComps L = (compSet (minReach L)).card := rfl

theorem compSet_minReach_fixed {c : Fin n} (hc : c ∈ compSet (minReach L)) :
    minReach L c = c := by
  obtain ⟨z, hz⟩ := mem_compSet_iff.1 hc
  rw [← hz]
  exact minReach_idem L z

theorem conn_append_left {R : List (WEdge n)} {x y : Fin n} (h : conn L x y) :
    conn (L ++ R) x y :=
  conn_mono (fun _ he => List.mem_append_left R he) h

theorem conn_of_label_rep {c u : Fin n} (hc : c ∈ compSet (minReach L))
    (hu : minReach L u = c) : conn L c u := by
  rw [← minReach_eq_iff_conn (L := L), compSet_minReach_fixed hc, hu]

/-- Each component is connected to its merge target after the round's edges
are appended: either its own emitted edge or its mutual partner's provides
the bridge. -/
theorem conn_round_step (hd : ∀ i j, d i j = d j i)
    (h2 : 2 ≤ (compSet (minReach L)).card) {ord : List (Fin n)}
    (hord : ∀ c : Fin n, c ∈ ord) {c : Fin n} (hc : c ∈ compSet (minReach L)) :
    conn (L ++ roundList d (minReach L) ord) c (tnext d (minReach L) c) := by
  set ℓ := minReach L with hℓ
  cases hemit : emitEdge d ℓ c with
  | some e =>
      obtain ⟨u, w, hp, rfl⟩ := emitEdge_some_spec hemit
      have hu : ℓ u = c := (winner_mem_cand hp).1
      have htc : tnext d ℓ c = ℓ w := tnext_eq_of_winner hp
      have h1 : conn L c u := conn_of_label_rep hc hu
      have h2' : adjE (L ++ roundList d ℓ ord) u w := by
        refine ⟨⟨u, w, d u w⟩, List.mem_append_right L ?_, Or.inl ⟨rfl, rfl⟩⟩
        exact mem_roundList_iff.2 ⟨c, hord c, hemit⟩
      have h3 : conn L w (tnext d ℓ c) := by
        rw [htc]
        exact conn_minReach L w
      exact conn_trans (conn_append_left h1)
        (conn_trans (conn_of_adjE h2') (conn_append_left h3))
  | none =>
      obtain ⟨u, w, hp, hpartner⟩ := mutual_partner_emits hd h2 hc hemit
      have hu : ℓ u = c := (winner_mem_cand hp).1
      have htc : tnext d ℓ c = ℓ w := tnext_eq_of_winner hp
      have h1 : conn L c u := conn_of_label_rep hc hu
      have h2' : adjE (L ++ roundList d ℓ ord) u w := by
        refine ⟨⟨w, u, d w u⟩, List.mem_append_right L ?_, Or.inr ⟨rfl, rfl⟩⟩
        exact mem_roundList_iff.2 ⟨tnext d ℓ c, hord _, hpartner⟩
      have h3 : conn L w (tnext d ℓ c) := by
        rw [htc]
        exact conn_minReach L w
      exact conn_trans (conn_append_left h1)
        (conn_trans (conn_of_adjE h2') (conn_append_left h3))

theorem conn_round_iterate (hd : ∀ i j, d i j = d j i)
    (h2 : 2 ≤ (compSet (minReach L)).card) {ord : List (Fin n)}
    (hord : ∀ c : Fin n, c ∈ ord) {c : Fin n} (hc : c ∈ compSet (minReach L))
    (i : ℕ) :
    conn (L ++ roundList d (minReach L) ord) c ((tnext d (minReach L))^[i] c) := by
  induction i with
  | zero => exact conn_refl _ _
  | succ i ih =>
      rw [Function.iterate_succ_apply']
      exact conn_trans ih (conn_round_step hd h2 hord (tnext_iterate_mem hc i))

theorem conn_round_to_anchor (hd : ∀ i j, d i j = d j i)
    (h2 : 2 ≤ (compSet (minReach L)).card) {ord : List (Fin n)}
    (hord : ∀ c : Fin n, c ∈ ord) (x : Fin n) :
    conn (L ++ roundList d (minReach L) ord) x
      (anchor d (minReach L) (minReach L x)) := by
  set ℓ := minReach L with hℓ
  have h1 : conn (L ++ roundList d ℓ ord) x (ℓ x) :=
    conn_append_left (conn_minReach L x)
  have hmem : ℓ x ∈ compSet ℓ := ell_mem_compSet x
  have h2a := conn_round_iterate hd h2 hord hmem (2 * n)
  have h2b := conn_round_iterate hd h2 hord hmem (2 * n + 1)
  unfold anchor
  rcases le_total ((tnext d ℓ)^[2 * n] (ℓ x)) ((tnext d ℓ)^[2 * n + 1] (ℓ x))
    with hle | hle
  · rw [min_eq_left hle]
    exact conn_trans h1 h2a
  · rw [min_eq_right hle]
    exact conn_trans h1 h2b

/-- Connectivity after one round is exactly "same anchor". -/
theorem conn_round_iff (hd : ∀ i j, d i j = d j i)
    (h2 : 2 ≤ (compSet (minReach L)).card) {ord : List (Fin n)}
    (hord : ∀ c : Fin n, c ∈ ord) {x y : Fin n} :
    conn (L ++ roundList d (minReach L) ord) x y ↔
      anchor d (minReach L) (minReach L x) =
        anchor d (minReach L) (minReach L y) := by
  set ℓ := minReach L with hℓ
  constructor
  · intro h
    induction h with
    | refl => rfl
    | tail _ hadj ih =>
        rename_i b c _
        rw [ih]
        obtain ⟨e, he, hor⟩ := hadj
        rcases List.mem_append.1 he with he | he
        · have hbc : conn L b c := conn_of_adjE ⟨e, he, hor⟩
          exact congrArg (fun z => anchor d ℓ z) (minReach_eq_of_conn hbc)
        · obtain ⟨c0, _, hemit⟩ := mem_roundList_iff.1 he
          obtain ⟨u, w, hp, rfl⟩ := emitEdge_some_spec hemit
          have hu : ℓ u = c0 := (winner_mem_cand hp).1
          have hc0 : c0 ∈ compSet ℓ := mem_compSet_iff.2 ⟨u, hu⟩
          have hw : ℓ w = tnext d ℓ c0 := (tnext_eq_of_winner hp).symm
          have hanchor : anchor d ℓ (ℓ u) = anchor d ℓ (ℓ w) := by
            rw [hu, hw, anchor_tnext hd h2 hc0]
          simp only [WEdge.source, WEdge.target] at hor
          rcases hor with ⟨hs, ht⟩ | ⟨hs, ht⟩
          · rw [← hs, ← ht]
            exact hanchor
          · rw [← hs, ← ht]
            exact hanchor.symm
  · intro h
    have h1 := conn_round_to_anchor hd h2 hord (L := L) (d := d) x
    have h2' := conn_round_to_anchor hd h2 hord (L := L) (d := d) y
    rw [← hℓ] at h1 h2'
    rw [h] at h1
    exact conn_trans h1 (conn_symm h2')

end RoundConn

/-! #### Counting the round -/

/-- The merged components of the round: minima of the mutual 2-cycles. -/
def anchorSet (d : Fin n → Fin n → ℚ) (ℓ : Fin n → Fin n) : Finset (Fin n) :=
  (compSet ℓ).filter (fun c => tnext d ℓ (tnext d ℓ c) = c ∧ c < tnext d ℓ c)

/-- The components that do not emit their winner: maxima of the mutual
2-cycles (§4.6's deduplication). -/
def nonEmitSet (d : Fin n → Fin n → ℚ) (ℓ : Fin n → Fin n) : Finset (Fin n) :=
  (compSet ℓ).filter (fun c => tnext d ℓ (tnext d ℓ c) = c ∧ tnext d ℓ c < c)

theorem card_anchorSet_eq_nonEmitSet (d : Fin n → Fin n → ℚ)
    (ℓ : Fin n → Fin n) :
    (anchorSet d ℓ).card = (nonEmitSet d ℓ).card := by
  refine Finset.card_bij (fun a _ => tnext d ℓ a) ?_ ?_ ?_
  · intro a ha
    obtain ⟨hmem, hcyc, hlt⟩ := Finset.mem_filter.1 ha
    refine Finset.mem_filter.2 ⟨tnext_mem hmem, ?_, ?_⟩
    · exact congrArg (tnext d ℓ) hcyc
    · rw [hcyc]
      exact hlt
  · intro a1 ha1 a2 ha2 heq
    obtain ⟨_, hcyc1, _⟩ := Finset.mem_filter.1 ha1
    obtain ⟨_, hcyc2, _⟩ := Finset.mem_filter.1 ha2
    have := congrArg (tnext d ℓ) heq
    rwa [hcyc1, hcyc2] at this
  · intro b hb
    obtain ⟨hmem, hcyc, hlt⟩ := Finset.mem_filter.1 hb
    refine ⟨tnext d ℓ b, Finset.mem_filter.2 ⟨tnext_mem hmem, ?_, ?_⟩, hcyc⟩
    · exact congrArg (tnext d ℓ) hcyc
    · rw [hcyc]
      exact hlt

theorem length_filterMap_eq_countP {α β : Type} (f : α → Option β) (l : List α) :
    (l.filterMap f).length = l.countP (fun a => (f a).isSome) := by
  induction l with
  | nil => rfl
  | cons a l ih =>
      rw [List.filterMap_cons, List.countP_cons]
      cases hfa : f a with
      | none => simp [hfa, ih]
      | some b => simp [hfa, ih]

theorem countP_eq_card_filter_univ {p : Fin n → Bool} {ord : List (Fin n)}
    (hnodup : ord.Nodup) (hord : ∀ c : Fin n, c ∈ ord) :
    ord.countP p = (Finset.univ.filter (fun c => p c = true)).card := by
  rw [List.countP_eq_length_filter]
  have h1 : (ord.filter p).Nodup := hnodup.filter p
  rw [← List.toFinset_card_of_nodup h1]
  congr 1
  ext c
  simp only [List.mem_toFinset, List.mem_filter, Finset.mem_filter, Finset.mem_univ,
    true_and]
  constructor
  · rintro ⟨_, hp⟩; exact hp
  · intro hp; exact ⟨hord c, hp⟩

section RoundCount

variable {d : Fin n → Fin n → ℚ} {ℓ : Fin n → Fin n}

theorem emit_filter_eq (hd : ∀ i j, d i j = d j i) (h2 : 2 ≤ (compSet ℓ).card) :
    Finset.univ.filter (fun c => (emitEdge d ℓ c).isSome = true) =
      compSet ℓ \ nonEmitSet d ℓ := by
  ext c
  simp only [Finset.mem_filter, Finset.mem_univ, true_and, Finset.mem_sdiff]
  by_cases hc : c ∈ compSet ℓ
  · constructor
    · intro hsome
      refine ⟨hc, ?_⟩
      intro hne
      obtain ⟨_, hcyc, hlt⟩ := Finset.mem_filter.1 hne
      have := (emitEdge_none_iff hd h2 hc).2 ⟨hcyc, hlt⟩
      rw [this] at hsome
      exact absurd hsome (by simp)
    · rintro ⟨_, hne⟩
      cases hemit : emitEdge d ℓ c with
      | some e => rfl
      | none =>
          exfalso
          obtain ⟨hcyc, hlt⟩ := (emitEdge_none_iff hd h2 hc).1 hemit
          exact hne (Finset.mem_filter.2 ⟨hc, hcyc, hlt⟩)
  · constructor
    · intro hsome
      rw [emitEdge_none_of_not_mem hc] at hsome
      exact absurd hsome (by simp)
    · rintro ⟨hmem, _⟩
      exact absurd hmem hc

theorem length_roundList (hd : ∀ i j, d i j = d j i)
    (h2 : 2 ≤ (compSet ℓ).card) {ord : List (Fin n)} (hnodup : ord.Nodup)
    (hord : ∀ c : Fin n, c ∈ ord) :
    (roundList d ℓ ord).length + (nonEmitSet d ℓ).card = (compSet ℓ).card := by
  unfold roundList
  rw [length_filterMap_eq_countP, countP_eq_card_filter_univ hnodup hord,
    emit_filter_eq hd h2]
  have hNEsub : nonEmitSet d ℓ ⊆ compSet ℓ := Finset.filter_subset _ _
  have hsd : (compSet ℓ \ nonEmitSet d ℓ).card =
      (compSet ℓ).card - (nonEmitSet d ℓ).card := Finset.card_sdiff hNEsub
  have hle : (nonEmitSet d ℓ).card ≤ (compSet ℓ).card := Finset.card_le_card hNEsub
  omega

end RoundCount

theorem card_image_univ_eq_of_ker {f g : Fin n → Fin n}
    (h : ∀ x y, f x = f y ↔ g x = g y) :
    (Finset.univ.image f).card = (Finset.univ.image g).card := by
  classical
  refine Finset.card_bij
    (fun b hb => g (Classical.choose (Finset.mem_image.1 hb))) ?_ ?_ ?_
  · intro b hb
    exact Finset.mem_image.2 ⟨Classical.choose (Finset.mem_image.1 hb),
      Finset.mem_univ _, rfl⟩
  · intro b1 hb1 b2 hb2 heq
    obtain ⟨_, hx1⟩ := Classical.choose_spec (Finset.mem_image.1 hb1)
    obtain ⟨_, hx2⟩ := Classical.choose_spec (Finset.mem_image.1 hb2)
    rw [← hx1, ← hx2]
    exact (h _ _).2 heq
  · intro c hcim
    obtain ⟨x, _, hx⟩ := Finset.mem_image.1 hcim
    refine ⟨f x, Finset.mem_image.2 ⟨x, Finset.mem_univ _, rfl⟩, ?_⟩
    have hmem : f x ∈ Finset.univ.image f :=
      Finset.mem_image.2 ⟨x, Finset.mem_univ _, rfl⟩
    obtain ⟨_, hch⟩ := Classical.choose_spec (Finset.mem_image.1 hmem)
    rw [← hx]
    exact (h _ _).1 hch

section RoundConn2

variable {d : Fin n → Fin n → ℚ} {L : List (WEdge n)}

theorem image_anchor_eq_anchorSet (hd : ∀ i j, d i j = d j i)
    (h2 : 2 ≤ (compSet (minReach L)).card) :
    Finset.univ.image (fun x => anchor d (minReach L) (minReach L x)) =
      anchorSet d (minReach L) := by
  ext a
  simp only [Finset.mem_image, Finset.mem_univ, true_and]
  constructor
  · rintro ⟨x, rfl⟩
    have hmem : minReach L x ∈ compSet (minReach L) := ell_mem_compSet x
    exact Finset.mem_filter.2 ⟨anchor_mem hmem, anchor_cyclic hd h2 hmem,
      anchor_lt_tnext hd h2 hmem⟩
  · intro ha
    obtain ⟨hmem, hcyc, hlt⟩ := Finset.mem_filter.1 ha
    refine ⟨a, ?_⟩
    rw [compSet_minReach_fixed hmem]
    exact anchor_of_cyclic_min hcyc hlt

theorem numComps_after_round (hd : ∀ i j, d i j = d j i)
    (h2 : 2 ≤ numComps L) {ord : List (Fin n)}
    (hord : ∀ c : Fin n, c ∈ ord) :
    numComps (L ++ roundList d (minReach L) ord) =
      (anchorSet d (minReach L)).card := by
  have hker : ∀ x y : Fin n,
      minReach (L ++ roundList d (minReach L) ord) x =
        minReach (L ++ roundList d (minReach L) ord) y ↔
      anchor d (minReach L) (minReach L x) = anchor d (minReach L) (minReach L y) := by
    intro x y
    rw [minReach_eq_iff_conn]
    exact conn_round_iff hd h2 hord
  unfold numComps
  rw [card_image_univ_eq_of_ker hker, image_anchor_eq_anchorSet hd h2]

/-- Borůvka halving: every anchor class contains at least the two members of
its mutual pair, so the component count at least halves each round. -/
theorem card_compSet_ge_two_mul_anchorSet (hd : ∀ i j, d i j = d j i)
    (h2 : 2 ≤ (compSet (minReach L)).card) :
    2 * (anchorSet d (minReach L)).card ≤ (compSet (minReach L)).card := by
  classical
  set ℓ := minReach L with hℓ
  have hmaps : ∀ c ∈ compSet ℓ, anchor d ℓ c ∈ anchorSet d ℓ := by
    intro c hc
    exact Finset.mem_filter.2 ⟨anchor_mem hc, anchor_cyclic hd h2 hc,
      anchor_lt_tnext hd h2 hc⟩
  rw [Finset.card_eq_sum_card_fiberwise hmaps]
  have hfiber : ∀ a ∈ anchorSet d ℓ,
      2 ≤ ((compSet ℓ).filter (fun c => anchor d ℓ c = a)).card := by
    intro a ha
    obtain ⟨hmem, hcyc, hlt⟩ := Finset.mem_filter.1 ha
    have hTa : tnext d ℓ a ∈ compSet ℓ := tnext_mem hmem
    have hanch_a : anchor d ℓ a = a := anchor_of_cyclic_min hcyc hlt
    have hanch_Ta : anchor d ℓ (tnext d ℓ a) = a := by
      rw [anchor_tnext hd h2 hmem, hanch_a]
    have hsub : ({a, tnext d ℓ a} : Finset (Fin n)) ⊆
        (compSet ℓ).filter (fun c => anchor d ℓ c = a) := by
      intro z hz
      rcases Finset.mem_insert.1 hz with rfl | hz
      · exact Finset.mem_filter.2 ⟨hmem, hanch_a⟩
      · rw [Finset.mem_singleton.1 hz]
        exact Finset.mem_filter.2 ⟨hTa, hanch_Ta⟩
    have hcard2 : ({a, tnext d ℓ a} : Finset (Fin n)).card = 2 :=
      Finset.card_pair (ne_of_lt hlt)
    calc 2 = ({a, tnext d ℓ a} : Finset (Fin n)).card := hcard2.symm
      _ ≤ _ := Finset.card_le_card hsub
  calc 2 * (anchorSet d ℓ).card
      = ∑ _a ∈ anchorSet d ℓ, 2 := by
        rw [Finset.sum_const, smul_eq_mul, mul_comm]
    _ ≤ ∑ a ∈ anchorSet d ℓ, ((compSet ℓ).filter (fun c => anchor d ℓ c = a)).card :=
        Finset.sum_le_sum hfiber

/-- The per-round bookkeeping identity of `doBoruvka`: the number of
components decreases by exactly the number of emitted edges. -/
theorem numComps_round_identity (hd : ∀ i j, d i j = d j i)
    (h2 : 2 ≤ numComps L) {ord : List (Fin n)} (hnodup : ord.Nodup)
    (hord : ∀ c : Fin n, c ∈ ord) :
    numComps (L ++ roundList d (minReach L) ord) +
      (roundList d (minReach L) ord).length = numComps L := by
  rw [numComps_after_round hd h2 hord]
  have h1 := length_roundList (ℓ := minReach L) hd h2 hnodup hord
  have h2' := card_anchorSet_eq_nonEmitSet d (minReach L)
  rw [numComps_eq_card_compSet]
  omega

end RoundConn2

/-! #### Distinctness of the accumulated edge list -/

/-- Two edge records denote the same unordered endpoint pair. -/
def samePair (e f : WEdge n) : Prop :=
  (e.source = f.source ∧ e.target = f.target) ∨
    (e.source = f.target ∧ e.target = f.source)

instance (e f : WEdge n) : Decidable (samePair e f) := by
  unfold samePair; infer_instance

section Distinct

variable {d : Fin n → Fin n → ℚ} {ℓ : Fin n → Fin n} {L : List (WEdge n)}

theorem emitEdge_some_cond {c u w : Fin n} (hwin : winner d ℓ c = some (u, w))
    {e : WEdge n} (hsome : emitEdge d ℓ c = some e) :
    c < ℓ w ∨ ¬ (winner d ℓ (ℓ w) = some (w, u)) := by
  by_cases hcond : c < ℓ w ∨ ¬ (winner d ℓ (ℓ w) = some (w, u))
  · exact hcond
  · rw [emitEdge_eq_of_winner hwin, if_neg hcond] at hsome
    exact absurd hsome (by simp)

/-- Two distinct components never emit the same unordered pair in a round:
if they did, their winners would be mutual, and the deduplication rule lets
only the smaller id emit. -/
theorem emit_distinct_pairs {c1 c2 : Fin n} (hne : c1 ≠ c2) {e f : WEdge n}
    (h1 : emitEdge d ℓ c1 = some e) (h2 : emitEdge d ℓ c2 = some f) :
    ¬ samePair e f := by
  obtain ⟨u1, w1, hw1, rfl⟩ := emitEdge_some_spec h1
  obtain ⟨u2, w2, hw2, rfl⟩ := emitEdge_some_spec h2
  have hu1 : ℓ u1 = c1 := (winner_mem_cand hw1).1
  have hu2 : ℓ u2 = c2 := (winner_mem_cand hw2).1
  rintro (⟨hs, ht⟩ | ⟨hs, ht⟩)
  · simp only [WEdge.source, WEdge.target] at hs ht
    exact hne (by rw [← hu1, hs, hu2])
  · simp only [WEdge.source, WEdge.target] at hs ht
    -- u1 = w2, w1 = u2: a mutual pair, both emitted — impossible
    have hc1 := emitEdge_some_cond hw1 h1
    have hc2 := emitEdge_some_cond hw2 h2
    have hℓw1 : ℓ w1 = c2 := by rw [ht, hu2]
    have hℓw2 : ℓ w2 = c1 := by rw [← hs, hu1]
    have hmut1 : winner d ℓ (ℓ w1) = some (w1, u1) := by
      rw [hℓw1, hw2]
      rw [ht, hs]
    have hmut2 : winner d ℓ (ℓ w2) = some (w2, u2) := by
      rw [hℓw2, hw1]
      rw [ht, hs]
    rcases hc1 with hlt1 | hcon
    · rcases hc2 with hlt2 | hcon
      · rw [hℓw1] at hlt1
        rw [hℓw2] at hlt2
        exact absurd hlt2 (not_lt.2 (le_of_lt hlt1))
      · exact hcon hmut2
    · exact hcon hmut1

theorem roundList_pairwise {ord : List (Fin n)} (hnodup : ord.Nodup) :
    (roundList d ℓ ord).Pairwise (fun e f => ¬ samePair e f) := by
  unfold roundList
  refine List.Pairwise.filterMap (emitEdge d ℓ) ?_ hnodup
  intro c1 c2 hne e he f hf
  exact emit_distinct_pairs hne (Option.mem_def.1 he) (Option.mem_def.1 hf)

theorem roundList_not_conn {ord : List (Fin n)} {e : WEdge n}
    (he : e ∈ roundList d (minReach L) ord) : ¬ conn L e.source e.target := by
  obtain ⟨c, _, hemit⟩ := mem_roundList_iff.1 he
  obtain ⟨u, w, hwin, rfl⟩ := emitEdge_some_spec hemit
  have hu : minReach L u = c := (winner_mem_cand hwin).1
  have hw : minReach L w ≠ c := (winner_mem_cand hwin).2
  intro hcon
  exact hw (by rw [← minReach_eq_of_conn hcon, hu])

theorem roundList_source_ne_target {ord : List (Fin n)} {e : WEdge n}
    (he : e ∈ roundList d (minReach L) ord) : e.source ≠ e.target := by
  intro hcon
  exact roundList_not_conn he (hcon ▸ conn_refl L e.source)

theorem cross_distinct_pairs {ord : List (Fin n)} {e f : WEdge n}
    (he : e ∈ L) (hf : f ∈ roundList d (minReach L) ord) : ¬ samePair e f := by
  intro hsp
  have hce : conn L e.source e.target :=
    conn_of_adjE ⟨e, he, Or.inl ⟨rfl, rfl⟩⟩
  have hcf : conn L f.source f.target := by
    rcases hsp with ⟨hs, ht⟩ | ⟨hs, ht⟩
    · rw [← hs, ← ht]; exact hce
    · rw [← hs, ← ht]; exact conn_symm hce
  exact roundList_not_conn hf hcf

end Distinct

/-! ### The Borůvka loop of `doBoruvka` (lines 185–269 of the source)

The loop state is the accumulated edge list; one round appends the edges
emitted by `update_unidirectional_edges` and merges components (the label
update).  The loop repeats while the bookkeeping count
`num_components = n - num_edges` exceeds one, mirroring the do-while in
the source; the fuel argument only bounds the recursion and is chosen
large enough to never be exhausted (proved below). -/

/-- The combined invariant of the accumulated edge list: the bookkeeping
identity `num_components = n - num_edges`, pairwise-distinct unordered
endpoint pairs, and no self-loops. -/
def EdgeInv (L : List (WEdge n)) : Prop :=
  numComps L + L.length = n ∧
    L.Pairwise (fun e f => ¬ samePair e f) ∧
    ∀ e ∈ L, e.source ≠ e.target

theorem numComps_le_n (L : List (WEdge n)) : numComps L ≤ n := by
  unfold numComps
  calc (Finset.univ.image (minReach L)).card ≤ Finset.univ.card :=
        Finset.card_le_card (Finset.subset_univ _)
    _ = n := by rw [Finset.card_univ, Fintype.card_fin]

theorem numComps_pos (L : List (WEdge n)) (hn : 1 ≤ n) : 1 ≤ numComps L := by
  unfold numComps
  refine Finset.card_pos.2 ⟨minReach L ⟨0, by omega⟩, ?_⟩
  exact Finset.mem_image.2 ⟨⟨0, by omega⟩, Finset.mem_univ _, rfl⟩

section Loop

variable {d : Fin n → Fin n → ℚ}

/-- One Borůvka round preserves the invariant, decreases the component count
by exactly the number of emitted edges, and at least halves it. -/
theorem round_preserves (hd : ∀ i j, d i j = d j i) {L : List (WEdge n)}
    (h2 : 2 ≤ numComps L) {ord : List (Fin n)} (hnodup : ord.Nodup)
    (hord : ∀ c : Fin n, c ∈ ord) (hInv : EdgeInv L) :
    EdgeInv (L ++ roundList d (minReach L) ord) ∧
      numComps (L ++ roundList d (minReach L) ord) +
        (roundList d (minReach L) ord).length = numComps L ∧
      numComps (L ++ roundList d (minReach L) ord) < numComps L ∧
      2 * numComps (L ++ roundList d (minReach L) ord) ≤ numComps L ∧
      1 ≤ numComps (L ++ roundList d (minReach L) ord) := by
  obtain ⟨hcount, hpw, hne⟩ := hInv
  have hid := numComps_round_identity hd h2 hnodup hord
  have hhalf := card_compSet_ge_two_mul_anchorSet (L := L) hd h2
  rw [← numComps_eq_card_compSet, ← numComps_after_round hd h2 hord] at hhalf
  have hn2 : 2 ≤ n := le_trans h2 (numComps_le_n L)
  have hpos : 1 ≤ numComps (L ++ roundList d (minReach L) ord) :=
    numComps_pos _ (by omega)
  refine ⟨⟨?_, ?_, ?_⟩, hid, by omega, hhalf, hpos⟩
  · rw [List.length_append]
    omega
  · rw [List.pairwise_append]
    exact ⟨hpw, roundList_pairwise hnodup,
      fun e he f hf => cross_distinct_pairs he hf⟩
  · intro e he
    rcases List.mem_append.1 he with he | he
    · exact hne e he
    · exact roundList_source_ne_target he

/-- The do-while loop of `doBoruvka`, returning the final value of
`iterations` and the accumulated edge list.  Each call performs one round
(the loop body always runs); the loop repeats while the bookkeeping
component count `n - num_edges` exceeds one. -/
def boruvkaRun (d : Fin n → Fin n → ℚ) (ords : ℕ → List (Fin n)) :
    ℕ → ℕ → List (WEdge n) → ℕ × List (WEdge n)
  | 0, it, L => (it, L ++ roundList d (minReach L) (ords it))
  | fuel + 1, it, L =>
      let L2 := L ++ roundList d (minReach L) (ords it)
      if 1 < n - L2.length then boruvkaRun d ords fuel (it + 1) L2 else (it, L2)

/-- One round as a step on (iteration counter, edge list) pairs; iterating
it from the initial state yields the per-round trace of the loop. -/
def pairStep (d : Fin n → Fin n → ℚ) (ords : ℕ → List (Fin n))
    (p : ℕ × List (WEdge n)) : ℕ × List (WEdge n) :=
  (p.1 + 1, p.2 ++ roundList d (minReach p.2) (ords p.1))

theorem pairStep_fst (ords : ℕ → List (Fin n)) (p : ℕ × List (WEdge n)) (k : ℕ) :
    ((pairStep d ords)^[k] p).1 = p.1 + k := by
  induction k with
  | zero => rfl
  | succ k ih =>
      rw [Function.iterate_succ_apply']
      have hstep : (pairStep d ords ((pairStep d ords)^[k] p)).1 =
          ((pairStep d ords)^[k] p).1 + 1 := rfl
      rw [hstep, ih]
      omega

/-- Master specification of the loop: started on an invariant-satisfying
state with at least two components and enough fuel, it ends with exactly
one component, the invariant preserved, the executed rounds matching the
step trace, at least two components before every executed round, and the
component count at least halving every round. -/
theorem boruvkaRun_spec (hd : ∀ i j, d i j = d j i) {ords : ℕ → List (Fin n)}
    (hnodup : ∀ r, (ords r).Nodup) (hord : ∀ r, ∀ c : Fin n, c ∈ ords r) :
    ∀ (fuel it : ℕ) (L : List (WEdge n)), EdgeInv L → 2 ≤ numComps L →
      numComps L ≤ 2 ^ (fuel + 1) →
      it ≤ (boruvkaRun d ords fuel it L).1 ∧
      (boruvkaRun d ords fuel it L).2 =
        ((pairStep d ords)^[(boruvkaRun d ords fuel it L).1 - it + 1] (it, L)).2 ∧
      EdgeInv (boruvkaRun d ords fuel it L).2 ∧
      numComps (boruvkaRun d ords fuel it L).2 = 1 ∧
      2 ^ ((boruvkaRun d ords fuel it L).1 - it + 1) ≤ numComps L ∧
      (∀ k < (boruvkaRun d ords fuel it L).1 - it + 1,
        2 ≤ numComps (((pairStep d ords)^[k] (it, L)).2)) ∧
      (∀ k ≤ (boruvkaRun d ords fuel it L).1 - it + 1,
        EdgeInv (((pairStep d ords)^[k] (it, L)).2)) := by
  intro fuel
  induction fuel with
  | zero =>
      intro it L hInv h2 hbound
      obtain ⟨hInv2, hid, hdec, hhalf, hpos⟩ :=
        round_preserves hd h2 (hnodup it) (hord it) hInv
      have hone : numComps (L ++ roundList d (minReach L) (ords it)) = 1 := by
        omega
      have hres : boruvkaRun d ords 0 it L =
          (it, L ++ roundList d (minReach L) (ords it)) := rfl
      rw [hres]
      have htrace : ((pairStep d ords)^[it - it + 1] (it, L)).2 =
          L ++ roundList d (minReach L) (ords it) := by
        have h0 : it - it + 1 = 1 := by omega
        rw [h0]
        rfl
      refine ⟨le_refl it, htrace.symm, hInv2, hone, ?_, ?_, ?_⟩
      · have h0 : it - it + 1 = 1 := by omega
        rw [h0]
        omega
      · intro k hk
        have h0 : k = 0 := by omega
        rw [h0]
        exact h2
      · intro k hk
        have h0 : k = 0 ∨ k = 1 := by omega
        rcases h0 with rfl | rfl
        · exact hInv
        · have h1 : ((pairStep d ords)^[1] (it, L)).2 =
              L ++ roundList d (minReach L) (ords it) := rfl
          rw [h1]
          exact hInv2
  | succ fuel ih =>
      intro it L hInv h2 hbound
      obtain ⟨hInv2, hid, hdec, hhalf, hpos⟩ :=
        round_preserves hd h2 (hnodup it) (hord it) hInv
      set L2 := L ++ roundList d (minReach L) (ords it) with hL2
      have hcount2 : numComps L2 + L2.length = n := hInv2.1
      have hcond : (1 < n - L2.length) ↔ (1 < numComps L2) := by omega
      have hres : boruvkaRun d ords (fuel + 1) it L =
          if 1 < n - L2.length then boruvkaRun d ords fuel (it + 1) L2
          else (it, L2) := rfl
      by_cases hc : 1 < n - L2.length
      · -- loop continues
        have h2b : 2 ≤ numComps L2 := by omega
        have hbound2 : numComps L2 ≤ 2 ^ (fuel + 1) := by
          have : 2 ^ (fuel + 1 + 1) = 2 * 2 ^ (fuel + 1) := by ring
          omega
        obtain ⟨hit, htr, hI, hone, hpow, hmid, hIall⟩ :=
          ih (it + 1) L2 hInv2 h2b hbound2
        rw [hres, if_pos hc]
        set r := boruvkaRun d ords fuel (it + 1) L2 with hr
        have hit2 : it ≤ r.1 := by omega
        have hsteps : r.1 - it + 1 = (r.1 - (it + 1) + 1) + 1 := by omega
        have htrace_shift : ∀ k : ℕ,
            ((pairStep d ords)^[k + 1] (it, L)) =
              ((pairStep d ords)^[k] (it + 1, L2)) := by
          intro k
          rw [Function.iterate_succ_apply]
          rfl
        refine ⟨hit2, ?_, hI, hone, ?_, ?_, ?_⟩
        · rw [hsteps, htrace_shift]
          exact htr
        · rw [hsteps]
          have : (2 : ℕ) ^ ((r.1 - (it + 1) + 1) + 1) =
              2 * 2 ^ (r.1 - (it + 1) + 1) := by ring
          omega
        · intro k hk
          cases k with
          | zero => exact h2
          | succ k =>
              rw [htrace_shift]
              exact hmid k (by omega)
        · intro k hk
          cases k with
          | zero => exact hInv
          | succ k =>
              rw [htrace_shift]
              exact hIall k (by omega)
      · -- loop exits
        have hone : numComps L2 = 1 := by omega
        rw [hres, if_neg hc]
        have htrace1 : ((pairStep d ords)^[1] (it, L)).2 = L2 := rfl
        have htrace : ((pairStep d ords)^[it - it + 1] (it, L)).2 = L2 := by
          have h0 : it - it + 1 = 1 := by omega
          rw [h0]
          exact htrace1
        refine ⟨le_refl it, htrace.symm, hInv2, hone, ?_, ?_, ?_⟩
        · have h0 : it - it + 1 = 1 := by omega
          rw [h0]
          omega
        · intro k hk
          have h0 : k = 0 := by omega
          rw [h0]
          exact h2
        · intro k hk
          have h0 : k = 0 ∨ k = 1 := by omega
          rcases h0 with rfl | rfl
          · exact hInv
          · rw [htrace1]
            exact hInv2

end Loop

/-! ### The final graph, as a Mathlib `SimpleGraph` -/

/-- The simple graph on the `n` points generated by an edge list. -/
def edgeGraph (L : List (WEdge n)) : SimpleGraph (Fin n) :=
  SimpleGraph.fromEdgeSet {s | ∃ e ∈ L, s = s(e.source, e.target)}

theorem edgeGraph_adj {L : List (WEdge n)} {x y : Fin n} :
    (edgeGraph L).Adj x y ↔ adjE L x y ∧ x ≠ y := by
  unfold edgeGraph
  rw [SimpleGraph.fromEdgeSet_adj]
  constructor
  · rintro ⟨⟨e, he, hpair⟩, hne⟩
    refine ⟨⟨e, he, ?_⟩, hne⟩
    rcases Sym2.eq_iff.1 hpair with ⟨h1, h2⟩ | ⟨h1, h2⟩
    · exact Or.inl ⟨h1.symm, h2.symm⟩
    · exact Or.inr ⟨h2.symm, h1.symm⟩
  · rintro ⟨⟨e, he, hor⟩, hne⟩
    refine ⟨⟨e, he, ?_⟩, hne⟩
    rcases hor with ⟨h1, h2⟩ | ⟨h1, h2⟩
    · rw [h1, h2]
    · rw [h1, h2]
      exact Sym2.eq_swap.symm

theorem conn_of_reachable {L : List (WEdge n)} {x y : Fin n}
    (h : (edgeGraph L).Reachable x y) : conn L x y := by
  obtain ⟨w⟩ := h
  induction w with
  | nil => exact conn_refl L _
  | cons hadj p ih =>
      exact conn_trans (conn_of_adjE (edgeGraph_adj.1 hadj).1) ih

theorem reachable_of_conn {L : List (WEdge n)} {x y : Fin n} (h : conn L x y) :
    (edgeGraph L).Reachable x y := by
  induction h with
  | refl => exact SimpleGraph.Reachable.refl _
  | tail _ hadj ih =>
      rename_i b c _
      refine ih.trans ?_
      by_cases hbc : b = c
      · rw [hbc]
      · exact SimpleGraph.Adj.reachable (edgeGraph_adj.2 ⟨hadj, hbc⟩)

theorem edgeGraph_connected {L : List (WEdge n)} (hn : 2 ≤ n)
    (hone : numComps L = 1) :
    (edgeGraph L).Connected := by
  have hconn : ∀ x y : Fin n, conn L x y := by
    intro x y
    apply conn_of_minReach_eq
    have hx : minReach L x ∈ Finset.univ.image (minReach L) :=
      Finset.mem_image.2 ⟨x, Finset.mem_univ _, rfl⟩
    have hy : minReach L y ∈ Finset.univ.image (minReach L) :=
      Finset.mem_image.2 ⟨y, Finset.mem_univ _, rfl⟩
    have hcard := Finset.card_le_one.1 (le_of_eq hone)
    exact hcard _ hx _ hy
  have : Nonempty (Fin n) := ⟨⟨0, by omega⟩⟩
  exact ⟨fun x y => reachable_of_conn (hconn x y)⟩

theorem numComps_eq_of_conn_iff {L L2 : List (WEdge n)}
    (h : ∀ x y : Fin n, conn L x y ↔ conn L2 x y) : numComps L = numComps L2 := by
  unfold numComps
  congr 1
  refine Finset.image_congr fun x _ => ?_
  refine minReach_unique ?_ ?_
  · exact (h _ _).2 (conn_minReach L2 x)
  · intro z hz
    exact minReach_le L2 ((h _ _).1 hz)

/-- Removing an edge whose endpoints remain connected without it does not
change connectivity at all. -/
theorem conn_iff_of_redundant {e : WEdge n} {L2 : List (WEdge n)}
    (hred : conn L2 e.source e.target) {x y : Fin n} :
    conn (e :: L2) x y ↔ conn L2 x y := by
  rw [conn_cons_iff]
  constructor
  · rintro (h | ⟨h1, h2⟩ | ⟨h1, h2⟩)
    · exact h
    · exact conn_trans h1 (conn_trans hred h2)
    · exact conn_trans h1 (conn_trans (conn_symm hred) h2)
  · exact Or.inl

/-- A connected edge list of length `n - 1` generates an acyclic graph: a
cycle would make one of its edges redundant, and removing it would leave a
connected graph with fewer than `n - 1` edges, contradicting the counting
bound `numComps_ge`. -/
theorem edgeGraph_acyclic {L : List (WEdge n)}
    (hlen : L.length + 1 = n) (hone : numComps L = 1) :
    (edgeGraph L).IsAcyclic := by
  classical
  intro v c hc
  -- the cycle starts with an edge s(v, w)
  obtain ⟨w, hadj, p, hcons⟩ : ∃ w, ∃ (hadj : (edgeGraph L).Adj v w),
      ∃ (p : (edgeGraph L).Walk w v), c = SimpleGraph.Walk.cons hadj p := by
    cases c with
    | nil => exact absurd rfl hc.ne_nil
    | cons hadj p => exact ⟨_, hadj, p, rfl⟩
  have hmem : s(v, w) ∈ c.edges := by
    rw [hcons, SimpleGraph.Walk.edges_cons]
    exact List.mem_cons_self _ _
  have hreach := (SimpleGraph.adj_and_reachable_delete_edges_iff_exists_cycle.2
    ⟨v, c, hc, hmem⟩).2
  obtain ⟨⟨e, he, hor⟩, hvw⟩ := edgeGraph_adj.1 hadj
  -- removing the edge record `e` keeps `v` and `w` reachable
  have hle : (edgeGraph L \ SimpleGraph.fromEdgeSet {s(v, w)}) ≤
      edgeGraph (L.erase e) := by
    intro a b hab
    rw [SimpleGraph.sdiff_adj] at hab
    obtain ⟨hGab, hHab⟩ := hab
    obtain ⟨⟨f, hf, horf⟩, hab_ne⟩ := edgeGraph_adj.1 hGab
    have hpair_ne : s(a, b) ≠ s(v, w) := by
      intro hcon
      refine hHab ?_
      rw [SimpleGraph.fromEdgeSet_adj]
      exact ⟨Set.mem_singleton_iff.2 hcon, hab_ne⟩
    have hfe : f ≠ e := by
      intro hcon
      refine hpair_ne ?_
      have hfpair : s(f.source, f.target) = s(a, b) := by
        rcases horf with ⟨h1, h2⟩ | ⟨h1, h2⟩
        · rw [h1, h2]
        · rw [h1, h2]
          exact Sym2.eq_swap
      have hepair : s(e.source, e.target) = s(v, w) := by
        rcases hor with ⟨h1, h2⟩ | ⟨h1, h2⟩
        · rw [h1, h2]
        · rw [h1, h2]
          exact Sym2.eq_swap
      rw [← hfpair, hcon, hepair]
    refine edgeGraph_adj.2 ⟨⟨f, ?_, horf⟩, hab_ne⟩
    exact (List.mem_erase_of_ne hfe).2 hf
  have hconnE : conn (L.erase e) v w :=
    conn_of_reachable (hreach.mono hle)
  -- `e` is redundant for connectivity
  have hred : conn (L.erase e) e.source e.target := by
    rcases hor with ⟨h1, h2⟩ | ⟨h1, h2⟩
    · rw [h1, h2]; exact hconnE
    · rw [h1, h2]; exact conn_symm hconnE
  have hperm : ∀ f : WEdge n, f ∈ L ↔ f ∈ e :: L.erase e :=
    fun f => (List.perm_cons_erase he).mem_iff
  have hsame : numComps L = numComps (L.erase e) := by
    refine numComps_eq_of_conn_iff fun x y => ?_
    rw [conn_congr hperm, conn_iff_of_redundant hred]
  have hlen2 : (L.erase e).length + 1 = L.length := by
    rw [List.length_erase_of_mem he]
    have := List.length_pos.2 (List.ne_nil_of_mem he)
    omega
  have hge := numComps_ge (L.erase e)
  omega

/-! ### The MST-mode pipeline and its guarantees -/

/-- The default emission order: components in index order (the serial
schedule of the `parallel_for` over `0..n`). -/
def defaultOrd (n : ℕ) : ℕ → List (Fin n) := fun _ => List.finRange n

/-- MST-mode `doBoruvka`: the do-while loop started with the identity
labels (`iota`), no accumulated edges, the iteration counter about to
become 1, and fuel `n` (never exhausted). Returns the final value of
`iterations` and the `edges` array. -/
def mstRun (d : Fin n → Fin n → ℚ) (ords : ℕ → List (Fin n)) :
    ℕ × List (WEdge n) :=
  boruvkaRun d ords n 1 []

/-- The final `edges` array of MST-mode construction (an arbitrary
per-round emission order). -/
def mstEdgesOrd (d : Fin n → Fin n → ℚ) (ords : ℕ → List (Fin n)) :
    List (WEdge n) :=
  (mstRun d ords).2

/-- The `iterations` counter after the loop. -/
def mstIters (d : Fin n → Fin n → ℚ) (ords : ℕ → List (Fin n)) : ℕ :=
  (mstRun d ords).1

/-- The final `edges` array of MST-mode construction. -/
def mstEdges (d : Fin n → Fin n → ℚ) : List (WEdge n) :=
  mstEdgesOrd d (defaultOrd n)

/-- The edge list after `k` rounds of the loop. -/
def mstTrace (d : Fin n → Fin n → ℚ) (ords : ℕ → List (Fin n)) (k : ℕ) :
    List (WEdge n) :=
  ((pairStep d ords)^[k] (1, ([] : List (WEdge n)))).2

section Pipeline

variable {d : Fin n → Fin n → ℚ}

theorem edgeInv_nil : EdgeInv ([] : List (WEdge n)) := by
  refine ⟨?_, List.Pairwise.nil, by simp⟩
  rw [numComps_nil]
  simp

/-- Instantiation of the loop master specification at the initial state. -/
theorem mstRun_spec (hd : ∀ i j, d i j = d j i) (hn : 2 ≤ n)
    {ords : ℕ → List (Fin n)} (hnodup : ∀ r, (ords r).Nodup)
    (hord : ∀ r, ∀ c : Fin n, c ∈ ords r) :
    1 ≤ (mstRun d ords).1 ∧
    (mstRun d ords).2 = mstTrace d ords (mstRun d ords).1 ∧
    EdgeInv (mstRun d ords).2 ∧
    numComps (mstRun d ords).2 = 1 ∧
    2 ^ (mstRun d ords).1 ≤ n ∧
    (∀ k < (mstRun d ords).1, 2 ≤ numComps (mstTrace d ords k)) ∧
    (∀ k ≤ (mstRun d ords).1, EdgeInv (mstTrace d ords k)) := by
  have hInv : EdgeInv ([] : List (WEdge n)) := edgeInv_nil
  have h2 : 2 ≤ numComps ([] : List (WEdge n)) := by
    rw [numComps_nil]; exact hn
  have hbound : numComps ([] : List (WEdge n)) ≤ 2 ^ (n + 1) := by
    rw [numComps_nil]
    calc n ≤ 2 ^ n := le_of_lt (Nat.lt_two_pow n)
      _ ≤ 2 ^ (n + 1) := Nat.pow_le_pow_right (by omega) (by omega)
  obtain ⟨hit, htr, hI, hone, hpow, hmid, hIall⟩ :=
    boruvkaRun_spec hd hnodup hord n 1 [] hInv h2 hbound
  have hsteps : (boruvkaRun d ords n 1 []).1 - 1 + 1 =
      (boruvkaRun d ords n 1 []).1 := by omega
  rw [numComps_nil] at hpow
  rw [hsteps] at htr hpow hmid hIall
  exact ⟨hit, htr, hI, hone, hpow, hmid, hIall⟩

theorem mstTrace_succ (ords : ℕ → List (Fin n)) (k : ℕ) :
    mstTrace d ords (k + 1) =
      mstTrace d ords k ++
        roundList d (minReach (mstTrace d ords k)) (ords (1 + k)) := by
  unfold mstTrace
  rw [Function.iterate_succ_apply']
  have hfst := pairStep_fst (d := d) ords (1, ([] : List (WEdge n))) k
  have hsnd : (pairStep d ords ((pairStep d ords)^[k] (1, ([] : List (WEdge n))))).2 =
      ((pairStep d ords)^[k] (1, ([] : List (WEdge n)))).2 ++
        roundList d (minReach ((pairStep d ords)^[k] (1, ([] : List (WEdge n)))).2)
          (ords ((pairStep d ords)^[k] (1, ([] : List (WEdge n)))).1) := rfl
  rw [hsnd, hfst]

theorem defaultOrd_nodup : ∀ r, (defaultOrd n r).Nodup :=
  fun _ => List.nodup_finRange n

theorem defaultOrd_mem : ∀ r, ∀ c : Fin n, c ∈ defaultOrd n r :=
  fun _ c => List.mem_finRange c

end Pipeline

section Claims1

variable {d : Fin n → Fin n → ℚ}

/-- **C1.** For every valid input of `N ≥ 2` points with a symmetric
metric, the constructed `MinimumSpanningTree`'s `edges` array has exactly
`N - 1` entries, and the graph whose vertices are the `N` points and whose
edges are those entries is connected and acyclic — a single spanning
tree. -/
theorem C1_spanning_tree (d : Fin n → Fin n → ℚ) (hn : 2 ≤ n)
    (hd : ∀ i j, d i j = d j i) :
    (mstEdges d).length = n - 1 ∧
      (edgeGraph (mstEdges d)).Connected ∧
      (edgeGraph (mstEdges d)).IsAcyclic := by
  obtain ⟨hit, htr, hI, hone, hpow, hmid, hIall⟩ :=
    mstRun_spec hd hn defaultOrd_nodup defaultOrd_mem
  obtain ⟨hcount, hpw, hloop⟩ := hI
  have hEq : mstEdges d = (mstRun d (defaultOrd n)).2 := rfl
  have hlen : (mstEdges d).length + 1 = n := by
    rw [hEq]
    omega
  rw [hEq]
  exact ⟨by omega, edgeGraph_connected hn hone,
    edgeGraph_acyclic (by rw [← hEq]; exact hlen) hone⟩

/-- A concrete symmetric metric on three points (the line 0, 1, 2). -/
def dEx : Fin 3 → Fin 3 → ℚ := fun i j => ((max i.1 j.1 - min i.1 j.1 : ℕ) : ℚ)

theorem C1_spanning_tree_witness :
    2 ≤ 3 ∧ (∀ i j, dEx i j = dEx j i) ∧
      ((mstEdges dEx).length = 3 - 1 ∧
        (edgeGraph (mstEdges dEx)).Connected ∧
        (edgeGraph (mstEdges dEx)).IsAcyclic) :=
  ⟨by norm_num, by decide, C1_spanning_tree dEx (by norm_num) (by decide)⟩

/-- **C2.** The Borůvka loop terminates.  With `R` the final value of the
`iterations` counter: at least one round runs; the final `edges` array is
the `R`-round trace; after every round the bookkeeping count
`num_components = N - num_edges` equals the true number of components;
before every executed round more than one component remains, and each
executed round strictly decreases (indeed at least halves) the component
count; after the last round exactly one component remains; and
`R ≤ ⌈log₂ N⌉`. -/
theorem C2_loop_terminates (d : Fin n → Fin n → ℚ) (hn : 2 ≤ n)
    (hd : ∀ i j, d i j = d j i) :
    1 ≤ mstIters d (defaultOrd n) ∧
    mstEdges d = mstTrace d (defaultOrd n) (mstIters d (defaultOrd n)) ∧
    (∀ k ≤ mstIters d (defaultOrd n),
      numComps (mstTrace d (defaultOrd n) k) =
        n - (mstTrace d (defaultOrd n) k).length) ∧
    (∀ k < mstIters d (defaultOrd n),
      2 ≤ numComps (mstTrace d (defaultOrd n) k)) ∧
    (∀ k < mstIters d (defaultOrd n),
      numComps (mstTrace d (defaultOrd n) (k + 1)) <
        numComps (mstTrace d (defaultOrd n) k) ∧
      2 * numComps (mstTrace d (defaultOrd n) (k + 1)) ≤
        numComps (mstTrace d (defaultOrd n) k)) ∧
    numComps (mstTrace d (defaultOrd n) (mstIters d (defaultOrd n))) = 1 ∧
    mstIters d (defaultOrd n) ≤ Nat.clog 2 n := by
  obtain ⟨hit, htr, hI, hone, hpow, hmid, hIall⟩ :=
    mstRun_spec hd hn defaultOrd_nodup defaultOrd_mem
  have hbk : ∀ k ≤ mstIters d (defaultOrd n),
      numComps (mstTrace d (defaultOrd n) k) =
        n - (mstTrace d (defaultOrd n) k).length := by
    intro k hk
    obtain ⟨hcount, _, _⟩ := hIall k hk
    omega
  have hdecs : ∀ k < mstIters d (defaultOrd n),
      numComps (mstTrace d (defaultOrd n) (k + 1)) <
        numComps (mstTrace d (defaultOrd n) k) ∧
      2 * numComps (mstTrace d (defaultOrd n) (k + 1)) ≤
        numComps (mstTrace d (defaultOrd n) k) := by
    intro k hk
    have hk2 := hmid k hk
    have hIk := hIall k (le_of_lt hk)
    obtain ⟨_, _, hdec, hhalf, _⟩ :=
      round_preserves hd hk2 (defaultOrd_nodup (1 + k)) (defaultOrd_mem (1 + k)) hIk
    rw [mstTrace_succ]
    exact ⟨hdec, hhalf⟩
  have hfin : numComps (mstTrace d (defaultOrd n) (mstIters d (defaultOrd n))) = 1 := by
    show numComps (mstTrace d (defaultOrd n) (mstRun d (defaultOrd n)).1) = 1
    rw [← htr]
    exact hone
  have hclog : mstIters d (defaultOrd n) ≤ Nat.clog 2 n := by
    have hlog : mstIters d (defaultOrd n) ≤ Nat.log 2 n :=
      (Nat.pow_le_iff_le_log (by omega) (by omega)).1 hpow
    exact le_trans hlog (Nat.log_le_clog 2 n)
  exact ⟨hit, htr, hbk, hmid, hdecs, hfin, hclog⟩

theorem C2_loop_terminates_witness :
    2 ≤ 3 ∧ (∀ i j, dEx i j = dEx j i) ∧
      (1 ≤ mstIters dEx (defaultOrd 3) ∧
       mstEdges dEx = mstTrace dEx (defaultOrd 3) (mstIters dEx (defaultOrd 3)) ∧
       (∀ k ≤ mstIters dEx (defaultOrd 3),
         numComps (mstTrace dEx (defaultOrd 3) k) =
           3 - (mstTrace dEx (defaultOrd 3) k).length) ∧
       (∀ k < mstIters dEx (defaultOrd 3),
         2 ≤ numComps (mstTrace dEx (defaultOrd 3) k)) ∧
       (∀ k < mstIters dEx (defaultOrd 3),
         numComps (mstTrace dEx (defaultOrd 3) (k + 1)) <
           numComps (mstTrace dEx (defaultOrd 3) k) ∧
         2 * numComps (mstTrace dEx (defaultOrd 3) (k + 1)) ≤
           numComps (mstTrace dEx (defaultOrd 3) k)) ∧
       numComps (mstTrace dEx (defaultOrd 3) (mstIters dEx (defaultOrd 3))) = 1 ∧
       mstIters dEx (defaultOrd 3) ≤ Nat.clog 2 3) :=
  ⟨by norm_num, by decide, C2_loop_terminates dEx (by norm_num) (by decide)⟩

end Claims1

/-! ### Determinism up to emission order (finalization sort) -/

/-- The canonical sort key of the claim: (weight, min endpoint,
max endpoint), lexicographically. -/
def canonKey (e : WEdge n) : ℚ ×ₗ (Fin n ×ₗ Fin n) :=
  toLex (e.weight, toLex (min e.source e.target, max e.source e.target))

/-- Canonical order on edge records. -/
def canonLE (e f : WEdge n) : Prop := canonKey e ≤ canonKey f

instance : DecidableRel (canonLE (n := n)) :=
  fun e f => inferInstanceAs (Decidable (canonKey e ≤ canonKey f))

/-- The canonical sort by (weight, min-endpoint, max-endpoint). -/
def canonSort (L : List (WEdge n)) : List (WEdge n) :=
  L.insertionSort canonLE

theorem canonKey_eq_imp {e f : WEdge n} (h : canonKey e = canonKey f) :
    samePair e f := by
  unfold canonKey at h
  have h2 := congrArg ofLex h
  have hmm := congrArg Prod.snd h2
  have h3 := congrArg ofLex hmm
  have hmin : min e.source e.target = min f.source f.target := congrArg Prod.fst h3
  have hmax : max e.source e.target = max f.source f.target := congrArg Prod.snd h3
  exact min_max_pair_eq hmin hmax

/-- A list sorted by the canonical order with pairwise-distinct keys is the
unique sorted arrangement of its elements. -/
theorem sorted_perm_eq : ∀ {l1 l2 : List (WEdge n)}, l1.Perm l2 →
    l1.Sorted canonLE → l2.Sorted canonLE →
    l1.Pairwise (fun e f => canonKey e ≠ canonKey f) → l1 = l2 := by
  intro l1
  induction l1 with
  | nil =>
      intro l2 hp _ _ _
      exact (List.Perm.nil_eq hp).symm |>.symm ▸ (List.Perm.eq_nil hp.symm).symm
  | cons a t1 ih =>
      intro l2 hp hs1 hs2 hinj
      cases l2 with
      | nil => exact absurd hp.symm (by simp)
      | cons b t2 =>
          have hab : a = b := by
            have hamem : a ∈ b :: t2 := hp.subset (List.mem_cons_self a t1)
            have hbmem : b ∈ a :: t1 := hp.symm.subset (List.mem_cons_self b t2)
            rcases List.mem_cons.1 hamem with h | hat2
            · exact h
            · rcases List.mem_cons.1 hbmem with h | hbt1
              · exact h.symm
              · -- both strictly inside the other tail: keys must be equal
                have h1 : canonLE a b := (List.pairwise_cons.1 hs1).1 b hbt1
                have h2 : canonLE b a := (List.pairwise_cons.1 hs2).1 a hat2
                have hkey : canonKey a = canonKey b := le_antisymm h1 h2
                exact absurd hkey ((List.pairwise_cons.1 hinj).1 b hbt1)
          rw [hab] at hp hs1 hinj ⊢
          have hp' : t1.Perm t2 := hp.cons_inv
          exact congrArg (List.cons b)
            (ih hp' (List.pairwise_cons.1 hs1).2 (List.pairwise_cons.1 hs2).2
              (List.pairwise_cons.1 hinj).2)

theorem canonSort_sorted (L : List (WEdge n)) : (canonSort L).Sorted canonLE := by
  haveI : IsTotal (WEdge n) canonLE := ⟨fun e f => le_total (canonKey e) (canonKey f)⟩
  haveI : IsTrans (WEdge n) canonLE := ⟨fun e f g h1 h2 => le_trans h1 h2⟩
  exact List.sorted_insertionSort canonLE L

theorem canonSort_eq_of_perm {L1 L2 : List (WEdge n)} (hp : L1.Perm L2)
    (hpw : L1.Pairwise (fun e f => ¬ samePair e f)) :
    canonSort L1 = canonSort L2 := by
  have hinj : L1.Pairwise (fun e f => canonKey e ≠ canonKey f) :=
    hpw.imp (fun hnp hk => hnp (canonKey_eq_imp hk))
  have hperm12 : (canonSort L1).Perm (canonSort L2) :=
    ((List.perm_insertionSort canonLE L1).trans hp).trans
      (List.perm_insertionSort canonLE L2).symm
  have hinj1 : (canonSort L1).Pairwise (fun e f => canonKey e ≠ canonKey f) := by
    refine ((List.perm_insertionSort canonLE L1).pairwise_iff ?_).2 hinj
    exact fun hne hk => hne hk.symm
  exact sorted_perm_eq hperm12 (canonSort_sorted L1) (canonSort_sorted L2) hinj1

section Determinism

variable {d : Fin n → Fin n → ℚ}

/-- Pairwise distinctness of the emitted pairs holds through the loop, with
no assumptions on the metric. -/
theorem boruvkaRun_pairwise {ords : ℕ → List (Fin n)}
    (hnodup : ∀ r, (ords r).Nodup) :
    ∀ (fuel it : ℕ) (L : List (WEdge n)),
      L.Pairwise (fun e f => ¬ samePair e f) →
      (boruvkaRun d ords fuel it L).2.Pairwise (fun e f => ¬ samePair e f) := by
  intro fuel
  induction fuel with
  | zero =>
      intro it L hpw
      have h0 : (boruvkaRun d ords 0 it L).2 =
          L ++ roundList d (minReach L) (ords it) := rfl
      rw [h0, List.pairwise_append]
      exact ⟨hpw, roundList_pairwise (hnodup it),
        fun e he f hf => cross_distinct_pairs he hf⟩
  | succ fuel ih =>
      intro it L hpw
      have hpw2 : (L ++ roundList d (minReach L) (ords it)).Pairwise
          (fun e f => ¬ samePair e f) := by
        rw [List.pairwise_append]
        exact ⟨hpw, roundList_pairwise (hnodup it),
          fun e he f hf => cross_distinct_pairs he hf⟩
      show ((if 1 < n - (L ++ roundList d (minReach L) (ords it)).length
          then boruvkaRun d ords fuel (it + 1) (L ++ roundList d (minReach L) (ords it))
          else (it, L ++ roundList d (minReach L) (ords it))) :
            ℕ × List (WEdge n)).2.Pairwise _
      by_cases hc : 1 < n - (L ++ roundList d (minReach L) (ords it)).length
      · rw [if_pos hc]
        exact ih (it + 1) _ hpw2
      · rw [if_neg hc]
        exact hpw2

/-- The loop is insensitive to the per-round emission order up to
permutation of the edge list: the emitted set of a round depends only on
the labels, which depend only on the accumulated edge set. -/
theorem boruvkaRun_perm {ords1 ords2 : ℕ → List (Fin n)}
    (hords : ∀ r, (ords1 r).Perm (ords2 r)) :
    ∀ (fuel it : ℕ) (L1 L2 : List (WEdge n)), L1.Perm L2 →
      (boruvkaRun d ords1 fuel it L1).1 = (boruvkaRun d ords2 fuel it L2).1 ∧
      (boruvkaRun d ords1 fuel it L1).2.Perm (boruvkaRun d ords2 fuel it L2).2 := by
  intro fuel
  induction fuel with
  | zero =>
      intro it L1 L2 hp
      have hℓ : minReach L1 = minReach L2 :=
        funext fun x => minReach_congr (fun e => hp.mem_iff) x
      refine ⟨rfl, hp.append ?_⟩
      rw [hℓ]
      exact (hords it).filterMap (emitEdge d (minReach L2))
  | succ fuel ih =>
      intro it L1 L2 hp
      have hℓ : minReach L1 = minReach L2 :=
        funext fun x => minReach_congr (fun e => hp.mem_iff) x
      have hpr : (roundList d (minReach L1) (ords1 it)).Perm
          (roundList d (minReach L2) (ords2 it)) := by
        rw [hℓ]
        exact (hords it).filterMap (emitEdge d (minReach L2))
      have hp2 : (L1 ++ roundList d (minReach L1) (ords1 it)).Perm
          (L2 ++ roundList d (minReach L2) (ords2 it)) := hp.append hpr
      have hlen : (L1 ++ roundList d (minReach L1) (ords1 it)).length =
          (L2 ++ roundList d (minReach L2) (ords2 it)).length := hp2.length_eq
      have e1 : boruvkaRun d ords1 (fuel + 1) it L1 =
          if 1 < n - (L1 ++ roundList d (minReach L1) (ords1 it)).length
          then boruvkaRun d ords1 fuel (it + 1)
            (L1 ++ roundList d (minReach L1) (ords1 it))
          else (it, L1 ++ roundList d (minReach L1) (ords1 it)) := rfl
      have e2 : boruvkaRun d ords2 (fuel + 1) it L2 =
          if 1 < n - (L2 ++ roundList d (minReach L2) (ords2 it)).length
          then boruvkaRun d ords2 fuel (it + 1)
            (L2 ++ roundList d (minReach L2) (ords2 it))
          else (it, L2 ++ roundList d (minReach L2) (ords2 it)) := rfl
      rw [e1, e2, hlen]
      by_cases hc : 1 < n - (L2 ++ roundList d (minReach L2) (ords2 it)).length
      · rw [if_pos hc, if_pos hc]
        exact ih (it + 1) _ _ hp2
      · rw [if_neg hc, if_neg hc]
        exact ⟨rfl, hp2⟩

/-- **C6.** Construction is deterministic: a run whose per-round emission
order is an arbitrary permutation of the components produces an `edges`
array that is identical, after the canonical sort by
(weight, min-endpoint, max-endpoint), to the default run's; only the
within-round emission order differs, and the sort removes that
difference. -/
theorem C6_deterministic_edges (d : Fin n → Fin n → ℚ)
    (ords : ℕ → List (Fin n)) (hperm : ∀ r, (ords r).Perm (List.finRange n)) :
    canonSort (mstEdgesOrd d ords) = canonSort (mstEdges d) := by
  have hords : ∀ r, (ords r).Perm (defaultOrd n r) := hperm
  have hrun := boruvkaRun_perm (d := d) hords n 1 [] [] (List.Perm.refl [])
  have hnodup : ∀ r, (ords r).Nodup :=
    fun r => ((hperm r).nodup_iff).2 (List.nodup_finRange n)
  have hpw : (mstEdgesOrd d ords).Pairwise (fun e f => ¬ samePair e f) :=
    boruvkaRun_pairwise hnodup n 1 [] List.Pairwise.nil
  exact canonSort_eq_of_perm hrun.2 hpw

/-- A fixed nontrivial emission order on three components. -/
def exOrd : ℕ → List (Fin 3) := fun _ => [2, 1, 0]

theorem C6_deterministic_edges_witness :
    (∀ r, (exOrd r).Perm (List.finRange 3)) ∧
      canonSort (mstEdgesOrd dEx exOrd) = canonSort (mstEdges dEx) :=
  have hlp : ([2, 1, 0] : List (Fin 3)).Perm (List.finRange 3) := by decide
  ⟨fun _ => hlp, C6_deterministic_edges dEx exOrd (fun _ => hlp)⟩

end Determinism

/-! ### The `MinimumSpanningTree` constructor (lines 44–97)

The constructor builds the BVH (a pure accelerator with no observable
effect at this level of abstraction), computes per-point core distances
and selects the mutual-reachability metric when `k > 1`, otherwise uses
the Euclidean metric, runs `doBoruvka`, and finalizes the edges.  The
scalar geometry is abstracted into the base distance function `d0`
standing for the Euclidean distance of the input points. -/

/-- Modelled from the spec (§4.4 core-distance builder): `core[p]` is the
distance from `p` to its `k`-th nearest neighbor, computed by a k-NN query
against the BVH built over all points — the query point itself is in the
indexed set (`attach_indices(points)`), so it participates at distance 0;
`MaxDistance` keeps the largest of the `k` returned distances. -/
def coreDistance (d0 : Fin n → Fin n → ℚ) (k : ℕ) (i : Fin n) : ℚ :=
  (((List.finRange n).map (fun j => d0 i j)).insertionSort (fun a b => a ≤ b)).getD
    (k - 1) 0

/-- Modelled from the spec (§4.3): the mutual-reachability distance
`max(core[i], core[j], d0(i,j))`. -/
def mutualReachability (d0 : Fin n → Fin n → ℚ) (core : Fin n → ℚ) :
    Fin n → Fin n → ℚ :=
  fun i j => max (max (core i) (core j)) (d0 i j)

/-- The `core_distances` view of the constructor: allocated and filled by
the k-NN query only in the `k > 1` branch; in the `k == 1` branch it is
never created (length 0 here). -/
def constructCoreDistances (d0 : Fin n → Fin n → ℚ) (k : ℤ) : List ℚ :=
  if 1 < k then (List.finRange n).map (coreDistance d0 k.toNat) else []

/-- The member views of a constructed `MinimumSpanningTree`. -/
structure MSTResult (n : ℕ) where
  edges : List (WEdge n)
  dendrogram_parents : List ℤ
  dendrogram_parent_heights : List ℚ
  chain_offsets : List ℕ
  chain_levels : List ℕ

/-- Modelled from the spec (§4.9 "finalize edges (compact to final N-1
entries; stable sort if required)" and §6 "Order is unspecified"): the
`edges` view already holds exactly its final entries, so
`Details::finalizeEdges` changes nothing observable here. -/
def finalizeEdges (L : List (WEdge n)) : List (WEdge n) := L

/-- The MST-mode `MinimumSpanningTree` constructor (default template
`Mode`): `k` is the C++ `int` parameter, defaulted to 1; the test `k > 1`
selects mutual reachability; no input validation is performed. -/
def mstConstruct (d0 : Fin n → Fin n → ℚ) (k : ℤ) : MSTResult n :=
  if 1 < k then
    { edges := finalizeEdges (mstEdges (mutualReachability d0 (coreDistance d0 k.toNat)))
      dendrogram_parents := []
      dendrogram_parent_heights := []
      chain_offsets := []
      chain_levels := [] }
  else
    { edges := finalizeEdges (mstEdges d0)
      dendrogram_parents := []
      dendrogram_parent_heights := []
      chain_offsets := []
      chain_levels := [] }

section Claims34

/-- **C3.** For every input `(d0, k)`: if `k > 1`, construction computes
per-point core distances (the k-th-nearest-neighbor distances, a length-`n`
array) and runs the Borůvka loop with the mutual-reachability metric
derived from them; if `k = 1`, it runs the loop with the plain (Euclidean)
metric and computes no core distances (the `core_distances` view is never
created). -/
theorem C3_metric_dispatch (d0 : Fin n → Fin n → ℚ) (k : ℤ) :
    (1 < k →
      (mstConstruct d0 k).edges =
        mstEdges (mutualReachability d0 (coreDistance d0 k.toNat)) ∧
      constructCoreDistances d0 k =
        (List.finRange n).map (coreDistance d0 k.toNat) ∧
      (constructCoreDistances d0 k).length = n) ∧
    (k = 1 →
      (mstConstruct d0 k).edges = mstEdges d0 ∧
      constructCoreDistances d0 k = []) := by
  constructor
  · intro hk
    refine ⟨?_, ?_, ?_⟩
    · unfold mstConstruct
      rw [if_pos hk]
      rfl
    · unfold constructCoreDistances
      rw [if_pos hk]
    · unfold constructCoreDistances
      rw [if_pos hk, List.length_map, List.length_finRange]
  · intro hk
    subst hk
    constructor
    · unfold mstConstruct
      rw [if_neg (by omega)]
      rfl
    · unfold constructCoreDistances
      rw [if_neg (by omega)]

theorem C3_metric_dispatch_witness :
    ((1 < (2 : ℤ) →
      (mstConstruct dEx 2).edges =
        mstEdges (mutualReachability dEx (coreDistance dEx (2 : ℤ).toNat)) ∧
      constructCoreDistances dEx 2 =
        (List.finRange 3).map (coreDistance dEx (2 : ℤ).toNat) ∧
      (constructCoreDistances dEx 2).length = 3) ∧
    ((2 : ℤ) = 1 →
      (mstConstruct dEx 2).edges = mstEdges dEx ∧
      constructCoreDistances dEx 2 = [])) ∧
    (1 < (2 : ℤ)) :=
  ⟨C3_metric_dispatch dEx 2, by norm_num⟩

/-- **C4 (counterexample).** Construction with the invalid parameter
`k = 0 < 1` does not fail: it runs to completion and returns a full,
normal MST of `N - 1` edges — the constructor contains no input
validation and no failure channel. -/
theorem C4_counterexample :
    (mstConstruct dEx 0).edges.length = 2 ∧
      (mstConstruct dEx 0).edges = mstEdges dEx := by
  constructor
  · decide
  · rfl

/-- **C4 (amended).** The constructor performs no input validation: any
`k ≤ 1` — including every invalid `k < 1` — is treated exactly like the
default `k = 1` (Euclidean mode), and construction returns a normal
result instead of failing. -/
theorem C4_no_validation (d0 : Fin n → Fin n → ℚ) (k : ℤ) (hk : k ≤ 1) :
    mstConstruct d0 k = mstConstruct d0 1 := by
  unfold mstConstruct
  rw [if_neg (by omega), if_neg (by omega)]

theorem C4_no_validation_witness :
    (0 : ℤ) ≤ 1 ∧ mstConstruct dEx 0 = mstConstruct dEx 1 :=
  ⟨by norm_num, C4_no_validation dEx 0 (by norm_num)⟩

end Claims34

/-! ### The per-leaf lower-bound cache (Serial backend)

`use_lower_bounds` (source lines 144–149) enables, for the Serial
execution space only, a per-leaf cache `lower_bounds[i]`: a lower bound
on the distance from leaf `i` to any point outside its component.
Modelled from the spec (§4.5 steps 1–2 and 6, §4.7): the Serial backend
runs the per-leaf tasks in index order; a leaf whose cached bound exceeds
the shared component weight skips its traversal. -/

/-- The best out-going candidate of a single leaf `u` (its traversal
result, without any pruning by other leaves). -/
def leafBest (d : Fin n → Fin n → ℚ) (ℓ : Fin n → Fin n) (u : Fin n) :
    Option (Fin n × Fin n) :=
  ((List.finRange n).filterMap
    (fun w => if ℓ w ≠ ℓ u then some (u, w) else none)).argmin (edgeKey d)

/-- Combine two candidates, keeping the smaller key (the atomic combine of
§4.5 step 5). -/
def combineOpt (d : Fin n → Fin n → ℚ) :
    Option (Fin n × Fin n) → Option (Fin n × Fin n) → Option (Fin n × Fin n)
  | none, o => o
  | some p, none => some p
  | some p, some q => if edgeKey d q < edgeKey d p then some q else some p

/-- One leaf task of the cached FCNN: skip when the cached bound exceeds
the current shared component weight (§4.5 step 2), else combine the leaf's
traversal result into the shared per-component best. -/
def cachedStep (d : Fin n → Fin n → ℚ) (ℓ : Fin n → Fin n) (lb : Fin n → ℚ)
    (best : Fin n → Option (Fin n × Fin n)) (u : Fin n) :
    Fin n → Option (Fin n × Fin n) :=
  let c := ℓ u
  let skip : Bool := match best c with
    | some p => decide (d p.1 p.2 < lb u)
    | none => false
  if skip then best
  else Function.update best c (combineOpt d (best c) (leafBest d ℓ u))

/-- The cached FCNN pass: leaf tasks in index order (Serial schedule). -/
def cachedFCNN (d : Fin n → Fin n → ℚ) (ℓ : Fin n → Fin n) (lb : Fin n → ℚ) :
    Fin n → Option (Fin n × Fin n) :=
  (List.finRange n).foldl (cachedStep d ℓ lb) (fun _ => none)

/-- What the shared best of component `c` must be after the leaves in `P`
have run. -/
def winnerOn (d : Fin n → Fin n → ℚ) (ℓ : Fin n → Fin n) (P : List (Fin n))
    (c : Fin n) : Option (Fin n × Fin n) → Prop
  | none => ∀ u ∈ P, ∀ w : Fin n, ℓ u = c → ℓ w ≠ c → False
  | some p => p.1 ∈ P ∧ ℓ p.1 = c ∧ ℓ p.2 ≠ c ∧
      ∀ u ∈ P, ∀ w : Fin n, ℓ u = c → ℓ w ≠ c →
        edgeKey d p ≤ edgeKey d (u, w)

section Cached

variable {d : Fin n → Fin n → ℚ} {ℓ : Fin n → Fin n}

theorem leafBest_some_spec {u : Fin n} {p : Fin n × Fin n}
    (h : leafBest d ℓ u = some p) :
    p.1 = u ∧ ℓ p.2 ≠ ℓ u ∧ ∀ w : Fin n, ℓ w ≠ ℓ u →
      edgeKey d p ≤ edgeKey d (u, w) := by
  have hmem := List.argmin_mem (Option.mem_def.2 h)
  rw [List.mem_filterMap] at hmem
  obtain ⟨w, _, hw⟩ := hmem
  by_cases hcase : ℓ w ≠ ℓ u
  · rw [if_pos hcase] at hw
    obtain ⟨h1, h2⟩ : u = p.1 ∧ w = p.2 := by
      have := Option.some.inj hw
      exact ⟨congrArg Prod.fst this, congrArg Prod.snd this⟩
    refine ⟨h1.symm, by rw [← h2]; exact hcase, ?_⟩
    intro w2 hw2
    refine List.le_of_mem_argmin ?_ (Option.mem_def.2 h)
    rw [List.mem_filterMap]
    exact ⟨w2, List.mem_finRange w2, by rw [if_pos hw2]⟩
  · rw [if_neg hcase] at hw
    exact absurd hw (by simp)

theorem leafBest_none_spec {u : Fin n} (h : leafBest d ℓ u = none) :
    ∀ w : Fin n, ℓ w = ℓ u := by
  intro w
  by_contra hcon
  have hmem : (u, w) ∈ (List.finRange n).filterMap
      (fun w2 => if ℓ w2 ≠ ℓ u then some (u, w2) else none) := by
    rw [List.mem_filterMap]
    exact ⟨w, List.mem_finRange w, by rw [if_pos hcon]⟩
  have := List.argmin_eq_none.1 h
  rw [this] at hmem
  exact List.not_mem_nil _ hmem

theorem leafBest_some_of_out {u w : Fin n} (hw : ℓ w ≠ ℓ u) :
    ∃ p, leafBest d ℓ u = some p := by
  cases hlb : leafBest d ℓ u with
  | some p => exact ⟨p, rfl⟩
  | none => exact absurd (leafBest_none_spec hlb w) hw

/-- Extending the processed set by a leaf of another component changes
nothing. -/
theorem winnerOn_extend {P : List (Fin n)} {c u : Fin n}
    {o : Option (Fin n × Fin n)} (ho : winnerOn d ℓ P c o) (hu : ℓ u ≠ c) :
    winnerOn d ℓ (P ++ [u]) c o := by
  cases o with
  | none =>
      intro v hv w hvc hwc
      rcases List.mem_append.1 hv with hv | hv
      · exact ho v hv w hvc hwc
      · rw [List.mem_singleton.1 hv] at hvc
        exact hu hvc
  | some p =>
      obtain ⟨h1, h2, h3, h4⟩ := ho
      refine ⟨List.mem_append_left _ h1, h2, h3, ?_⟩
      intro v hv w hvc hwc
      rcases List.mem_append.1 hv with hv | hv
      · exact h4 v hv w hvc hwc
      · rw [List.mem_singleton.1 hv] at hvc
        exact absurd hvc hu

/-- Combining the shared best with one leaf's traversal result gives the
winner over the enlarged processed set. -/
theorem combine_winnerOn (hc : ℓ u = c) {P : List (Fin n)}
    {o : Option (Fin n × Fin n)} (ho : winnerOn d ℓ P c o) :
    winnerOn d ℓ (P ++ [u]) c (combineOpt d o (leafBest d ℓ u)) := by
  cases o with
  | none =>
      cases hlf : leafBest d ℓ u with
      | none =>
          have hco : combineOpt d none (none : Option (Fin n × Fin n)) = none := rfl
          rw [hco]
          intro v hv w hvc hwc
          rcases List.mem_append.1 hv with hv | hv
          · exact ho v hv w hvc hwc
          · obtain rfl := List.mem_singleton.1 hv
            have hall := leafBest_none_spec hlf w
            rw [hall, hvc] at hwc
            exact hwc rfl
      | some q =>
          obtain ⟨hq1, hq2, hq3⟩ := leafBest_some_spec hlf
          have hco : combineOpt d none (some q) = some q := rfl
          rw [hco]
          refine ⟨?_, ?_, ?_, ?_⟩
          · rw [hq1]
            exact List.mem_append_right _ (List.mem_singleton_self u)
          · rw [hq1, hc]
          · rw [hc] at hq2
            exact hq2
          · intro v hv w hvc hwc
            rcases List.mem_append.1 hv with hv | hv
            · exact absurd hwc (ho v hv w hvc)
            · obtain rfl := List.mem_singleton.1 hv
              refine hq3 w ?_
              rw [hc]
              exact hwc
  | some p =>
      obtain ⟨hp1, hp2, hp3, hp4⟩ := ho
      cases hlf : leafBest d ℓ u with
      | none =>
          have hco : combineOpt d (some p) none = some p := rfl
          rw [hco]
          refine ⟨List.mem_append_left _ hp1, hp2, hp3, ?_⟩
          intro v hv w hvc hwc
          rcases List.mem_append.1 hv with hv | hv
          · exact hp4 v hv w hvc hwc
          · obtain rfl := List.mem_singleton.1 hv
            have hall := leafBest_none_spec hlf w
            rw [hall, hvc] at hwc
            exact absurd rfl hwc
      | some q =>
          obtain ⟨hq1, hq2, hq3⟩ := leafBest_some_spec hlf
          have hmin : ∀ v ∈ P ++ [u], ∀ w : Fin n, ℓ v = c → ℓ w ≠ c →
              min (edgeKey d p) (edgeKey d q) ≤ edgeKey d (v, w) := by
            intro v hv w hvc hwc
            rcases List.mem_append.1 hv with hv | hv
            · exact le_trans (min_le_left _ _) (hp4 v hv w hvc hwc)
            · obtain rfl := List.mem_singleton.1 hv
              refine le_trans (min_le_right _ _) (hq3 w ?_)
              rw [hc]
              exact hwc
          have hco : combineOpt d (some p) (some q) =
              if edgeKey d q < edgeKey d p then some q else some p := rfl
          rw [hco]
          by_cases hqp : edgeKey d q < edgeKey d p
          · rw [if_pos hqp]
            refine ⟨?_, ?_, ?_, ?_⟩
            · rw [hq1]
              exact List.mem_append_right _ (List.mem_singleton_self u)
            · rw [hq1, hc]
            · rw [hc] at hq2
              exact hq2
            · intro v hv w hvc hwc
              have := hmin v hv w hvc hwc
              rwa [min_eq_right (le_of_lt hqp)] at this
          · rw [if_neg hqp]
            refine ⟨List.mem_append_left _ hp1, hp2, hp3, ?_⟩
            intro v hv w hvc hwc
            have := hmin v hv w hvc hwc
            rwa [min_eq_left (not_lt.1 hqp)] at this

/-- The fold invariant: after processing `P`, the shared best of every
component is the winner among candidates whose source lies in `P` —
skipped leaves included, because a skipped leaf's candidates are strictly
worse than the current shared best. -/
theorem cachedStep_spec {lb : Fin n → ℚ}
    (hlb : ∀ u w : Fin n, ℓ w ≠ ℓ u → lb u ≤ d u w)
    {P : List (Fin n)} {best : Fin n → Option (Fin n × Fin n)}
    (hbest : ∀ c, winnerOn d ℓ P c (best c)) (u : Fin n) :
    ∀ c, winnerOn d ℓ (P ++ [u]) c (cachedStep d ℓ lb best u c) := by
  intro c
  have hstep : cachedStep d ℓ lb best u =
      if (match best (ℓ u) with
          | some p => decide (d p.1 p.2 < lb u)
          | none => false) then best
      else Function.update best (ℓ u)
        (combineOpt d (best (ℓ u)) (leafBest d ℓ u)) := rfl
  rw [hstep]
  by_cases hskip : (match best (ℓ u) with
      | some p => decide (d p.1 p.2 < lb u)
      | none => false) = true
  · -- skipped: every candidate of `u` is strictly worse than the shared best
    rw [if_pos hskip]
    by_cases hc : ℓ u = c
    · cases hb : best (ℓ u) with
      | none => rw [hb] at hskip; simp at hskip
      | some p =>
          rw [hb] at hskip
          have hplt : d p.1 p.2 < lb u := by simpa using hskip
          have hp := hbest (ℓ u)
          rw [hb] at hp
          obtain ⟨h1, h2, h3, h4⟩ := hp
          rw [← hc, hb]
          refine ⟨List.mem_append_left _ h1, h2, h3, ?_⟩
          intro v hv w hvc hwc
          rcases List.mem_append.1 hv with hv | hv
          · exact h4 v hv w hvc hwc
          · obtain rfl := List.mem_singleton.1 hv
            have hwu : ℓ w ≠ ℓ v := hvc ▸ hwc
            have hge : lb v ≤ d v w := hlb v w hwu
            have hlt : d p.1 p.2 < d v w := lt_of_lt_of_le hplt hge
            unfold edgeKey
            exact le_of_lt ((Prod.Lex.lt_iff _ _).2 (Or.inl hlt))
    · exact winnerOn_extend (hbest c) hc
  · rw [if_neg hskip]
    by_cases hc : ℓ u = c
    · rw [← hc, Function.update_same]
      exact combine_winnerOn rfl (hc ▸ hbest c)
    · rw [Function.update_noteq (fun hcon => hc hcon.symm)]
      exact winnerOn_extend (hbest c) hc

/-- The cached FCNN computes, for every component, exactly the specified
winner — provided the cached bounds are valid lower bounds. -/
theorem cachedFCNN_eq {lb : Fin n → ℚ}
    (hlb : ∀ u w : Fin n, ℓ w ≠ ℓ u → lb u ≤ d u w) :
    cachedFCNN d ℓ lb = winner d ℓ := by
  have hfold : ∀ (l P : List (Fin n)) (best : Fin n → Option (Fin n × Fin n)),
      (∀ c, winnerOn d ℓ P c (best c)) →
      ∀ c, winnerOn d ℓ (P ++ l) c ((l.foldl (cachedStep d ℓ lb) best) c) := by
    intro l
    induction l with
    | nil =>
        intro P best hbest c
        rw [List.append_nil]
        exact hbest c
    | cons u l ih =>
        intro P best hbest c
        rw [List.foldl_cons]
        have hnext := cachedStep_spec hlb hbest u
        have := ih (P ++ [u]) _ hnext c
        rwa [List.append_assoc, List.singleton_append] at this
  have hrun : ∀ c, winnerOn d ℓ (List.finRange n) c (cachedFCNN d ℓ lb c) := by
    intro c
    have hinit : ∀ c2, winnerOn d ℓ [] c2
        ((fun _ => (none : Option (Fin n × Fin n))) c2) := by
      intro c2 v hv
      exact absurd hv (List.not_mem_nil v)
    have := hfold (List.finRange n) [] _ hinit c
    rwa [List.nil_append] at this
  funext c
  have hw := hrun c
  cases hres : cachedFCNN d ℓ lb c with
  | none =>
      rw [hres] at hw
      cases hwin : winner d ℓ c with
      | none => rfl
      | some q =>
          obtain ⟨hq1, hq2⟩ := winner_mem_cand hwin
          exact absurd (hw q.1 (List.mem_finRange _) q.2 hq1 hq2) id
  | some p =>
      rw [hres] at hw
      obtain ⟨hp1, hp2, hp3, hp4⟩ := hw
      obtain ⟨q, hwin⟩ := winner_some (d := d) hp2 hp3
      rw [hwin]
      obtain ⟨hq1, hq2⟩ := winner_mem_cand hwin
      have hle1 : edgeKey d q ≤ edgeKey d p := winner_min hwin hp2 hp3
      have hle2 : edgeKey d p ≤ edgeKey d q := by
        have := hp4 q.1 (List.mem_finRange _) q.2 hq1 hq2
        simpa using this
      exact congrArg some (winner_cand_key_inj ⟨hp2, hp3⟩ ⟨hq1, hq2⟩
        (le_antisymm hle2 hle1))

/-- Modelled from the spec (§4.6): the emission step with the cached FCNN
result in place of the plain winner search. -/
def emitEdgeLB (d : Fin n → Fin n → ℚ) (ℓ : Fin n → Fin n) (lb : Fin n → ℚ)
    (c : Fin n) : Option (WEdge n) :=
  match cachedFCNN d ℓ lb c with
  | some (u, w) =>
      if c < ℓ w ∨ ¬ (cachedFCNN d ℓ lb (ℓ w) = some (w, u)) then
        some ⟨u, w, d u w⟩
      else none
  | none => none

/-- One round of emissions with the cache enabled. -/
def roundListLB (d : Fin n → Fin n → ℚ) (ℓ : Fin n → Fin n) (lb : Fin n → ℚ)
    (ord : List (Fin n)) : List (WEdge n) :=
  ord.filterMap (emitEdgeLB d ℓ lb)

/-- Modelled from the spec (§4.7): between rounds, the cached bound of
leaf `u` keeps the weight of `u`'s best candidate of the finished round,
reset to zero when that candidate's target was absorbed into `u`'s merged
component. -/
def updateLowerBounds (d : Fin n → Fin n → ℚ) (ℓ ℓ2 : Fin n → Fin n)
    (u : Fin n) : ℚ :=
  match leafBest d ℓ u with
  | some q => if ℓ2 q.2 = ℓ2 u then 0 else d u q.2
  | none => 0

/-- The do-while loop of `doBoruvka` with `use_lower_bounds` enabled
(source lines 144–166 and 211–215): the same loop as `boruvkaRun`,
carrying the per-leaf cache across rounds. -/
def boruvkaRunLB (d : Fin n → Fin n → ℚ) (ords : ℕ → List (Fin n)) :
    ℕ → ℕ → List (WEdge n) → (Fin n → ℚ) → ℕ × List (WEdge n)
  | 0, it, L, lb => (it, L ++ roundListLB d (minReach L) lb (ords it))
  | fuel + 1, it, L, lb =>
      let L2 := L ++ roundListLB d (minReach L) lb (ords it)
      if 1 < n - L2.length then
        boruvkaRunLB d ords fuel (it + 1) L2
          (updateLowerBounds d (minReach L) (minReach L2))
      else (it, L2)

/-- A lexicographic key comparison bounds the weights (first components). -/
theorem edgeKey_fst_le {d : Fin n → Fin n → ℚ} {p q : Fin n × Fin n}
    (h : edgeKey d p ≤ edgeKey d q) : d p.1 p.2 ≤ d q.1 q.2 := by
  unfold edgeKey at h
  rcases (Prod.Lex.le_iff _ _).1 h with h | h
  · exact le_of_lt h
  · exact le_of_eq h.1

/-- The updated bounds are valid lower bounds for the coarsened labels,
for a nonnegative metric. -/
theorem updateLowerBounds_valid {d : Fin n → Fin n → ℚ}
    (hnn : ∀ i j : Fin n, 0 ≤ d i j) {ℓ ℓ2 : Fin n → Fin n}
    (hco : ∀ u w : Fin n, ℓ w = ℓ u → ℓ2 w = ℓ2 u) :
    ∀ u w : Fin n, ℓ2 w ≠ ℓ2 u → updateLowerBounds d ℓ ℓ2 u ≤ d u w := by
  intro u w hw
  unfold updateLowerBounds
  cases hlf : leafBest d ℓ u with
  | none => exact hnn u w
  | some q =>
      show (if ℓ2 q.2 = ℓ2 u then (0 : ℚ) else d u q.2) ≤ d u w
      by_cases habs : ℓ2 q.2 = ℓ2 u
      · rw [if_pos habs]
        exact hnn u w
      · rw [if_neg habs]
        obtain ⟨hq1, _, hq3⟩ := leafBest_some_spec hlf
        have hwu : ℓ w ≠ ℓ u := fun hcon => hw (hco u w hcon)
        have hfst := edgeKey_fst_le (hq3 w hwu)
        rw [hq1] at hfst
        exact hfst

/-- Adding a round's edges only coarsens the label partition. -/
theorem minReach_coarsen {L R : List (WEdge n)} :
    ∀ u w : Fin n, minReach L w = minReach L u →
      minReach (L ++ R) w = minReach (L ++ R) u := fun _ _ h =>
  minReach_eq_iff_conn.2 (conn_append_left (minReach_eq_iff_conn.1 h))

/-- With valid cached bounds, the cached emission of a round equals the
plain emission. -/
theorem emitEdgeLB_eq {d : Fin n → Fin n → ℚ} {ℓ : Fin n → Fin n}
    {lb : Fin n → ℚ} (hlb : ∀ u w : Fin n, ℓ w ≠ ℓ u → lb u ≤ d u w) :
    emitEdgeLB d ℓ lb = emitEdge d ℓ := by
  funext c
  unfold emitEdgeLB emitEdge
  rw [cachedFCNN_eq hlb]

/-- With valid initial bounds and a nonnegative metric, the cached loop
computes exactly what the plain loop computes: counter and edges. -/
theorem boruvkaRunLB_eq {d : Fin n → Fin n → ℚ}
    (hnn : ∀ i j : Fin n, 0 ≤ d i j) (ords : ℕ → List (Fin n)) :
    ∀ (fuel it : ℕ) (L : List (WEdge n)) (lb : Fin n → ℚ),
      (∀ u w : Fin n, minReach L w ≠ minReach L u → lb u ≤ d u w) →
      boruvkaRunLB d ords fuel it L lb = boruvkaRun d ords fuel it L := by
  intro fuel
  induction fuel with
  | zero =>
      intro it L lb hlb
      have hround : roundListLB d (minReach L) lb (ords it) =
          roundList d (minReach L) (ords it) := by
        unfold roundListLB roundList
        rw [emitEdgeLB_eq hlb]
      show (it, L ++ roundListLB d (minReach L) lb (ords it)) =
        (it, L ++ roundList d (minReach L) (ords it))
      rw [hround]
  | succ fuel ih =>
      intro it L lb hlb
      have hround : roundListLB d (minReach L) lb (ords it) =
          roundList d (minReach L) (ords it) := by
        unfold roundListLB roundList
        rw [emitEdgeLB_eq hlb]
      have e1 : boruvkaRunLB d ords (fuel + 1) it L lb =
          (if 1 < n - (L ++ roundListLB d (minReach L) lb (ords it)).length
           then boruvkaRunLB d ords fuel (it + 1)
             (L ++ roundListLB d (minReach L) lb (ords it))
             (updateLowerBounds d (minReach L)
               (minReach (L ++ roundListLB d (minReach L) lb (ords it))))
           else (it, L ++ roundListLB d (minReach L) lb (ords it))) := rfl
      have e2 : boruvkaRun d ords (fuel + 1) it L =
          (if 1 < n - (L ++ roundList d (minReach L) (ords it)).length
           then boruvkaRun d ords fuel (it + 1)
             (L ++ roundList d (minReach L) (ords it))
           else (it, L ++ roundList d (minReach L) (ords it))) := rfl
      rw [e1, e2, hround]
      by_cases hcond : 1 < n - (L ++ roundList d (minReach L) (ords it)).length
      · rw [if_pos hcond, if_pos hcond]
        exact ih (it + 1) _ _
          (updateLowerBounds_valid hnn (fun u w h => minReach_coarsen u w h))
      · rw [if_neg hcond, if_neg hcond]

/-- MST-mode `doBoruvka` with the cache enabled; `lower_bounds` is
deep-copied to zero before the loop (source lines 164–166). -/
def mstRunLB (d : Fin n → Fin n → ℚ) : ℕ × List (WEdge n) :=
  boruvkaRunLB d (defaultOrd n) n 1 [] (fun _ => 0)

/-- The final `edges` array with the cache enabled. -/
def mstEdgesLB (d : Fin n → Fin n → ℚ) : List (WEdge n) :=
  (mstRunLB d).2

/-- C5: for every input with a nonnegative metric, running `doBoruvka` with
the per-leaf lower-bound cache enabled (the Serial `use_lower_bounds`
path) and running it with the cache disabled produce identical edge
arrays — indeed identical final loop states. -/
theorem C5_lower_bound_cache (d : Fin n → Fin n → ℚ)
    (hnn : ∀ i j : Fin n, 0 ≤ d i j) :
    mstEdgesLB d = mstEdges d ∧ mstRunLB d = mstRun d (defaultOrd n) := by
  have h : mstRunLB d = mstRun d (defaultOrd n) :=
    boruvkaRunLB_eq hnn (defaultOrd n) n 1 [] (fun _ => 0)
      (fun u w _ => hnn u w)
  exact ⟨congrArg Prod.snd h, h⟩

theorem C5_lower_bound_cache_witness :
    (∀ i j : Fin 3, 0 ≤ dEx i j) ∧
      (mstEdgesLB dEx = mstEdges dEx ∧
        mstRunLB dEx = mstRun dEx (defaultOrd 3)) :=
  ⟨by decide, C5_lower_bound_cache dEx (by decide)⟩

end Cached

/-! ### HDBSCAN mode: the dendrogram bookkeeping of `doBoruvka`

`Mode == BoruvkaMode::HDBSCAN` adds, on top of the same Borůvka loop:
`edges_mapping` and `sided_parents` views of length `n - 1`,
`dendrogram_parents` of length `2n - 1`, a second (bidirectional)
emission pass per round, the round-1 `assignVertexParents` /
round-`t ≥ 2` `updateSidedParents` dispatch (source lines 236–254), the
post-loop root-chain fill and `computeParentsAndReorderEdges` (source
lines 279–302), and the parent heights (source lines 304–311).  The
`Details::` helpers are modelled from the spec (§4.8). -/

/-- Modelled from the spec (§4.8): `sided_parents` sentinel for edges of
the final rounds, whose dendrogram parent is the root. -/
def ROOT_CHAIN_VALUE : ℤ := -2

/-- Uninitialized `sided_parents` marker of this embedding (the view is
allocated without initialization): distinguishable from every written
value and from `ROOT_CHAIN_VALUE`. -/
def SIDED_INIT : ℤ := -3

/-- Uninitialized `dendrogram_parents` marker of this embedding. -/
def DPARENT_INIT : ℤ := -4

/-- Modelled from the spec (§5 outputs): the `dendrogram_parents`
sentinel marking the root. -/
def ROOT_SENTINEL : ℤ := -1

/-- The slot (index into the global `edges` array) that the atomic
counter hands to component `c`'s unidirectional emission, when the
components run in order `ord` and the array holds `base` edges: the
number of emissions preceding `c`'s, offset by `base`. -/
def emitSlotAux (d : Fin n → Fin n → ℚ) (ℓ : Fin n → Fin n) :
    List (Fin n) → ℕ → Fin n → Option ℕ
  | [], _, _ => none
  | a :: rest, base, c =>
      if a = c then (emitEdge d ℓ a).map (fun _ => base)
      else
        match emitEdge d ℓ a with
        | some _ => emitSlotAux d ℓ rest (base + 1) c
        | none => emitSlotAux d ℓ rest base c

/-- Modelled from the spec (§4.6 and §4.8 "bidirectional emission"):
`edges_mapping[c]` after the two emission passes of a round — the slot
of `c`'s own emission when `c` emitted, else the slot of the mutual
partner's emission. -/
def roundMapping (d : Fin n → Fin n → ℚ) (ℓ : Fin n → Fin n) (base : ℕ)
    (c : Fin n) : Option ℕ :=
  match emitSlotAux d ℓ (List.finRange n) base c with
  | some s => some s
  | none =>
      match winner d ℓ c with
      | some p => emitSlotAux d ℓ (List.finRange n) base (ℓ p.2)
      | none => none

/-- Modelled from the spec (§4.8): round-1 vertex parents — each leaf's
dendrogram parent is `edges_mapping[label(i)]`, the edge its component
emitted. -/
def assignVertexParents (d : Fin n → Fin n → ℚ) (ℓ : Fin n → Fin n)
    (base : ℕ) (dp : Fin n → ℤ) : Fin n → ℤ :=
  fun i =>
    match roundMapping d ℓ base (ℓ i) with
    | some s => (s : ℤ)
    | none => dp i

/-- Modelled from the spec (§4.8): the sided-parent encoding — the
parent's slot with a low marker bit distinguishing the two sides of the
merge; always nonnegative, unlike the sentinels. -/
def encodeSided (s : ℕ) (b : Bool) : ℤ := 2 * s + (if b then 1 else 0)

/-- Modelled from the spec (§4.8): for every edge of the previous round
(slots `[eStart, eEnd)`), record the slot of the edge by which its merged
component continues this round, sided-encoded. -/
def updateSidedParents (d : Fin n → Fin n → ℚ) (ℓ : Fin n → Fin n)
    (base : ℕ) (E : List (WEdge n)) (eStart eEnd : ℕ) (sided : ℕ → ℤ) :
    ℕ → ℤ :=
  fun j =>
    if eStart ≤ j ∧ j < eEnd then
      match E[j]? with
      | some e =>
          match roundMapping d ℓ base (ℓ e.source) with
          | some s => encodeSided s (decide (e.target < e.source))
          | none => sided j
      | none => sided j
    else sided j

/-- The loop state of HDBSCAN-mode `doBoruvka`: `iterations`, the global
edge array, the previous round's slot range `[edges_start, edges_end)`,
`edge_offsets`, the leaf entries of `dendrogram_parents`, and
`sided_parents` (as a total map on slots). -/
structure HState (n : ℕ) where
  it : ℕ
  edges : List (WEdge n)
  eStart : ℕ
  eEnd : ℕ
  offsets : List ℕ
  dparents : Fin n → ℤ
  sided : ℕ → ℤ

/-- One HDBSCAN-mode round of the do-while loop (source lines 185–268):
emit this round's edges, push the new total onto `edge_offsets`, then —
with the labels still unmerged — run `assignVertexParents` when
`iterations == 1` and `updateSidedParents` (on the previous round's
slots) when `iterations > 1`, and finally shift the slot range. -/
def hstep (d : Fin n → Fin n → ℚ) (st : HState n) : HState n :=
  let ℓ := minReach st.edges
  let base := st.edges.length
  let E2 := st.edges ++ roundList d ℓ (List.finRange n)
  { it := st.it + 1
    edges := E2
    eStart := st.eEnd
    eEnd := E2.length
    offsets := st.offsets ++ [E2.length]
    dparents :=
      if 1 < st.it + 1 then st.dparents
      else assignVertexParents d ℓ base st.dparents
    sided :=
      if 1 < st.it + 1 then
        updateSidedParents d ℓ base E2 st.eStart st.eEnd st.sided
      else st.sided }

/-- The fuel-indexed do-while loop in HDBSCAN mode: the body always runs
once, and repeats while more than one component remains. -/
def hrun (d : Fin n → Fin n → ℚ) : ℕ → HState n → HState n
  | 0, st => hstep d st
  | fuel + 1, st =>
      let st2 := hstep d st
      if 1 < n - st2.edges.length then hrun d fuel st2 else st2

/-- The state before the loop: `iterations = 0`, no edges,
`edges_start = edges_end = 0`, `edge_offsets = [0]`, the dendrogram
views unwritten. -/
def hinit (n : ℕ) : HState n :=
  { it := 0
    edges := []
    eStart := 0
    eEnd := 0
    offsets := [0]
    dparents := fun _ => DPARENT_INIT
    sided := fun _ => SIDED_INIT }

/-- HDBSCAN-mode `doBoruvka`'s loop, run to completion (fuel `n` more
than suffices: the component count at least halves every round). -/
def hdbscanRun (d : Fin n → Fin n → ℚ) : HState n :=
  hrun d n (hinit n)

/-- The post-loop deep-copy (source lines 283–288): the `sided_parents`
entries of the final round's slots are set to `ROOT_CHAIN_VALUE`. -/
def rootChainFill (eStart eEnd : ℕ) (sided : ℕ → ℤ) : ℕ → ℤ :=
  fun j => if eStart ≤ j ∧ j < eEnd then ROOT_CHAIN_VALUE else sided j

/-- `sided_parents` as handed to `computeParentsAndReorderEdges`. -/
def hdbscanSided (d : Fin n → Fin n → ℚ) : ℕ → ℤ :=
  rootChainFill (hdbscanRun d).eStart (hdbscanRun d).eEnd
    (hdbscanRun d).sided

section SlotLemmas

variable {d : Fin n → Fin n → ℚ} {ℓ : Fin n → Fin n}

/-- A handed-out slot names the emitted edge of its component: the slot
is past `base` and the round list holds `c`'s emission there. -/
theorem emitSlotAux_some : ∀ (ord : List (Fin n)) (base : ℕ) {c : Fin n}
    {s : ℕ}, emitSlotAux d ℓ ord base c = some s →
    base ≤ s ∧ ∃ e, emitEdge d ℓ c = some e ∧
      (roundList d ℓ ord)[s - base]? = some e := by
  intro ord
  induction ord with
  | nil => intro base c s h; exact absurd h (by simp [emitSlotAux])
  | cons a rest ih =>
      intro base c s h
      by_cases hac : a = c
      · rw [emitSlotAux, if_pos hac] at h
        cases hem : emitEdge d ℓ a with
        | none => rw [hem] at h; exact absurd h (by simp)
        | some e =>
            rw [hem] at h
            have hs : s = base := by
              have hbs : base = s := Option.some.inj h
              omega
            subst hs
            refine ⟨le_refl _, e, hac ▸ hem, ?_⟩
            have hr : roundList d ℓ (a :: rest) =
                e :: roundList d ℓ rest := by
              unfold roundList
              rw [List.filterMap_cons, hem]
            rw [hr, Nat.sub_self]
            simp
      · rw [emitSlotAux, if_neg hac] at h
        cases hem : emitEdge d ℓ a with
        | none =>
            rw [hem] at h
            obtain ⟨hle, e, hee, hget⟩ := ih base h
            refine ⟨hle, e, hee, ?_⟩
            have hr : roundList d ℓ (a :: rest) = roundList d ℓ rest := by
              unfold roundList
              rw [List.filterMap_cons, hem]
            rw [hr]
            exact hget
        | some e0 =>
            rw [hem] at h
            obtain ⟨hle, e, hee, hget⟩ := ih (base + 1) h
            refine ⟨by omega, e, hee, ?_⟩
            have hr : roundList d ℓ (a :: rest) =
                e0 :: roundList d ℓ rest := by
              unfold roundList
              rw [List.filterMap_cons, hem]
            rw [hr]
            have hsb : s - base = (s - (base + 1)) + 1 := by omega
            rw [hsb]
            simpa using hget

/-- A component that emits is handed a slot. -/
theorem emitSlotAux_isSome : ∀ (ord : List (Fin n)) (base : ℕ) {c : Fin n}
    {e : WEdge n}, c ∈ ord → emitEdge d ℓ c = some e →
    ∃ s, emitSlotAux d ℓ ord base c = some s := by
  intro ord
  induction ord with
  | nil => intro base c e hc; exact absurd hc (List.not_mem_nil c)
  | cons a rest ih =>
      intro base c e hc hem
      by_cases hac : a = c
      · refine ⟨base, ?_⟩
        rw [emitSlotAux, if_pos hac, hac, hem]
        rfl
      · have hc2 : c ∈ rest := by
          rcases List.mem_cons.1 hc with h | h
          · exact absurd h.symm hac
          · exact h
        rw [emitSlotAux, if_neg hac]
        cases hem2 : emitEdge d ℓ a with
        | none => exact ih base hc2 hem
        | some e0 => exact ih (base + 1) hc2 hem

/-- A component that does not emit is handed no slot. -/
theorem emitSlotAux_none {c : Fin n} (hnone : emitEdge d ℓ c = none) :
    ∀ (ord : List (Fin n)) (base : ℕ), emitSlotAux d ℓ ord base c = none := by
  intro ord
  induction ord with
  | nil => intro base; rfl
  | cons a rest ih =>
      intro base
      by_cases hac : a = c
      · rw [emitSlotAux, if_pos hac, hac, hnone]
        rfl
      · rw [emitSlotAux, if_neg hac]
        cases hem : emitEdge d ℓ a with
        | none => exact ih base
        | some e0 => exact ih (base + 1)

/-- Every live component gets a mapping slot after the two passes. -/
theorem roundMapping_isSome (hd : ∀ i j, d i j = d j i)
    (h2 : 2 ≤ (compSet ℓ).card) {c : Fin n} (hc : c ∈ compSet ℓ)
    (base : ℕ) : ∃ s, roundMapping d ℓ base c = some s := by
  cases hem : emitEdge d ℓ c with
  | some e =>
      obtain ⟨s, hs⟩ :=
        emitSlotAux_isSome (List.finRange n) base (List.mem_finRange c) hem
      refine ⟨s, ?_⟩
      unfold roundMapping
      rw [hs]
  | none =>
      obtain ⟨u, w, hwin, hpart⟩ := mutual_partner_emits hd h2 hc hem
      have htn : tnext d ℓ c = ℓ w := tnext_eq_of_winner hwin
      rw [htn] at hpart
      obtain ⟨s, hs⟩ :=
        emitSlotAux_isSome (List.finRange n) base (List.mem_finRange (ℓ w))
          hpart
      refine ⟨s, ?_⟩
      unfold roundMapping
      rw [emitSlotAux_none hem, hwin]
      exact hs

/-- The mapping slot of a live component holds one of the two
orientations of its winner, placed past `base` in the round list. -/
theorem roundMapping_slot (hd : ∀ i j, d i j = d j i)
    {base : ℕ} {c : Fin n} {s : ℕ}
    (h : roundMapping d ℓ base c = some s) :
    base ≤ s ∧ ∃ u w, winner d ℓ c = some (u, w) ∧
      ((roundList d ℓ (List.finRange n))[s - base]? = some ⟨u, w, d u w⟩ ∨
        (roundList d ℓ (List.finRange n))[s - base]? = some ⟨w, u, d w u⟩) := by
  unfold roundMapping at h
  cases hslot : emitSlotAux d ℓ (List.finRange n) base c with
  | some s0 =>
      rw [hslot] at h
      have hs0 : s0 = s := Option.some.inj h
      subst hs0
      obtain ⟨hle, e, hee, hget⟩ := emitSlotAux_some (List.finRange n) base hslot
      obtain ⟨u, w, hwin, hesh⟩ := emitEdge_some_spec hee
      exact ⟨hle, u, w, hwin, Or.inl (hesh ▸ hget)⟩
  | none =>
      rw [hslot] at h
      cases hwin : winner d ℓ c with
      | none => rw [hwin] at h; exact absurd h (by simp)
      | some p =>
          rw [hwin] at h
          obtain ⟨hle, e, hee, hget⟩ :=
            emitSlotAux_some (List.finRange n) base h
          -- `c` itself did not emit, so the pair is mutual and the
          -- partner's emission is the reversed winner
          have hnone : emitEdge d ℓ c = none := by
            cases hem : emitEdge d ℓ c with
            | none => rfl
            | some e0 =>
                obtain ⟨s1, hs1⟩ := emitSlotAux_isSome (List.finRange n) base
                  (List.mem_finRange c) hem
                rw [hslot] at hs1
                exact absurd hs1 (by simp)
          have h2 : 2 ≤ (compSet ℓ).card := by
            obtain ⟨hc1, hc2⟩ := winner_mem_cand hwin
            exact Finset.one_lt_card.2
              ⟨c, mem_compSet_iff.2 ⟨p.1, hc1⟩, ℓ p.2,
                ell_mem_compSet p.2, Ne.symm hc2⟩
          obtain ⟨u, w, hwin2, hpart⟩ :=
            mutual_partner_emits hd h2
              (mem_compSet_iff.2 ⟨p.1, (winner_mem_cand hwin).1⟩) hnone
          have hpp : p = (u, w) := by
            rw [hwin] at hwin2
            exact Option.some.inj hwin2
          subst hpp
          have htn : tnext d ℓ c = ℓ w := tnext_eq_of_winner hwin
          rw [htn] at hpart
          rw [hpart] at hee
          exact ⟨hle, u, w, rfl, Or.inr ((Option.some.inj hee) ▸ hget)⟩

end SlotLemmas

section HLoop

variable {d : Fin n → Fin n → ℚ}

theorem hstep_dparents_zero {st : HState n} (h : st.it = 0) :
    (hstep d st).dparents =
      assignVertexParents d (minReach st.edges) st.edges.length
        st.dparents := by
  have e : (hstep d st).dparents =
      if 1 < st.it + 1 then st.dparents
      else assignVertexParents d (minReach st.edges) st.edges.length
        st.dparents := rfl
  rw [e, if_neg (by omega)]

theorem hstep_dparents_pos {st : HState n} (h : 1 ≤ st.it) :
    (hstep d st).dparents = st.dparents := by
  have e : (hstep d st).dparents =
      if 1 < st.it + 1 then st.dparents
      else assignVertexParents d (minReach st.edges) st.edges.length
        st.dparents := rfl
  rw [e, if_pos (by omega)]

theorem hstep_sided_zero {st : HState n} (h : st.it = 0) :
    (hstep d st).sided = st.sided := by
  have e : (hstep d st).sided =
      if 1 < st.it + 1 then
        updateSidedParents d (minReach st.edges) st.edges.length
          (hstep d st).edges st.eStart st.eEnd st.sided
      else st.sided := rfl
  rw [e, if_neg (by omega)]

theorem hstep_sided_pos {st : HState n} (h : 1 ≤ st.it) :
    (hstep d st).sided =
      updateSidedParents d (minReach st.edges) st.edges.length
        (hstep d st).edges st.eStart st.eEnd st.sided := by
  have e : (hstep d st).sided =
      if 1 < st.it + 1 then
        updateSidedParents d (minReach st.edges) st.edges.length
          (hstep d st).edges st.eStart st.eEnd st.sided
      else st.sided := rfl
  rw [e, if_pos (by omega)]

theorem hrun_unfold (fuel : ℕ) (st : HState n) :
    hrun d (fuel + 1) st =
      if 1 < n - (hstep d st).edges.length then hrun d fuel (hstep d st)
      else hstep d st := rfl

/-- Once `iterations ≥ 1`, the remaining rounds never touch the vertex
parents. -/
theorem hrun_dparents_pos :
    ∀ (fuel : ℕ) (st : HState n), 1 ≤ st.it →
      (hrun d fuel st).dparents = st.dparents := by
  intro fuel
  induction fuel with
  | zero => intro st h; exact hstep_dparents_pos h
  | succ fuel ih =>
      intro st h
      rw [hrun_unfold]
      by_cases hc : 1 < n - (hstep d st).edges.length
      · rw [if_pos hc]
        have h2 : 1 ≤ (hstep d st).it := by
          have : (hstep d st).it = st.it + 1 := rfl
          omega
        rw [ih (hstep d st) h2]
        exact hstep_dparents_pos h
      · rw [if_neg hc]
        exact hstep_dparents_pos h

/-- The vertex parents of the whole run are those written by its first
round. -/
theorem hrun_dparents_first :
    ∀ (fuel : ℕ) (st : HState n), st.it = 0 →
      (hrun d fuel st).dparents = (hstep d st).dparents := by
  intro fuel
  induction fuel with
  | zero => intro st _; rfl
  | succ fuel _ =>
      intro st h
      rw [hrun_unfold]
      by_cases hc : 1 < n - (hstep d st).edges.length
      · rw [if_pos hc]
        refine hrun_dparents_pos fuel (hstep d st) ?_
        have : (hstep d st).it = st.it + 1 := rfl
        omega
      · rw [if_neg hc]

end HLoop

/-- **C7.**  In HDBSCAN mode the dendrogram vertex parents are assigned
exactly once, by `assignVertexParents` right after the edge emission of
round 1 (`iterations == 1`), each leaf receiving (the slot of) the MST
edge emitted by its round-1 component; in every round `t ≥ 2` the loop
runs `updateSidedParents` on the previous round's slots instead, leaving
the vertex parents untouched. -/
theorem C7_parent_dispatch (d : Fin n → Fin n → ℚ) (hn : 2 ≤ n)
    (hd : ∀ i j, d i j = d j i) :
    ((hstep d (hinit n)).dparents =
        assignVertexParents d (minReach ([] : List (WEdge n))) 0
          (hinit n).dparents
      ∧ (hstep d (hinit n)).sided = (hinit n).sided)
    ∧ (∀ st : HState n, 1 ≤ st.it →
        (hstep d st).dparents = st.dparents ∧
        (hstep d st).sided =
          updateSidedParents d (minReach st.edges) st.edges.length
            (hstep d st).edges st.eStart st.eEnd st.sided)
    ∧ (hdbscanRun d).dparents = (hstep d (hinit n)).dparents
    ∧ (∀ i : Fin n, ∃ (s : ℕ) (e : WEdge n),
        (hdbscanRun d).dparents i = (s : ℤ) ∧
        (hstep d (hinit n)).edges[s]? = some e ∧
        (e.source = i ∨ e.target = i)) := by
  have hfirst : (hdbscanRun d).dparents = (hstep d (hinit n)).dparents :=
    hrun_dparents_first n (hinit n) rfl
  refine ⟨⟨hstep_dparents_zero rfl, hstep_sided_zero rfl⟩,
    fun st h => ⟨hstep_dparents_pos h, hstep_sided_pos h⟩, hfirst, ?_⟩
  intro i
  have hli : minReach ([] : List (WEdge n)) i = i := minReach_nil i
  have h2 : 2 ≤ (compSet (minReach ([] : List (WEdge n)))).card := by
    have hcard := numComps_eq_card_compSet ([] : List (WEdge n))
    have hnil := numComps_nil (n := n)
    omega
  have hmem : i ∈ compSet (minReach ([] : List (WEdge n))) :=
    mem_compSet_iff.2 ⟨i, hli⟩
  obtain ⟨s, hs⟩ := roundMapping_isSome hd h2 hmem 0
  obtain ⟨_, u, w, hwin, hor⟩ := roundMapping_slot hd hs
  have hu : u = i := by
    have hcand := (winner_mem_cand hwin).1
    rw [minReach_nil u] at hcand
    exact hcand
  have hdp : (hdbscanRun d).dparents i = (s : ℤ) := by
    rw [hfirst, hstep_dparents_zero rfl]
    show (match roundMapping d (minReach ([] : List (WEdge n))) 0
        (minReach ([] : List (WEdge n)) i) with
      | some s => (s : ℤ)
      | none => (hinit n).dparents i) = (s : ℤ)
    rw [hli, hs]
  have hedges : (hstep d (hinit n)).edges =
      roundList d (minReach ([] : List (WEdge n))) (List.finRange n) := rfl
  cases hor with
  | inl h =>
      refine ⟨s, ⟨u, w, d u w⟩, hdp, ?_, Or.inl hu⟩
      rw [hedges]
      simpa using h
  | inr h =>
      refine ⟨s, ⟨w, u, d w u⟩, hdp, ?_, Or.inr hu⟩
      rw [hedges]
      simpa using h

theorem C7_parent_dispatch_witness :
    (2 ≤ 3 ∧ ∀ i j : Fin 3, dEx i j = dEx j i) ∧
    (((hstep dEx (hinit 3)).dparents =
        assignVertexParents dEx (minReach ([] : List (WEdge 3))) 0
          (hinit 3).dparents
      ∧ (hstep dEx (hinit 3)).sided = (hinit 3).sided)
    ∧ (∀ st : HState 3, 1 ≤ st.it →
        (hstep dEx st).dparents = st.dparents ∧
        (hstep dEx st).sided =
          updateSidedParents dEx (minReach st.edges) st.edges.length
            (hstep dEx st).edges st.eStart st.eEnd st.sided)
    ∧ (hdbscanRun dEx).dparents = (hstep dEx (hinit 3)).dparents
    ∧ (∀ i : Fin 3, ∃ (s : ℕ) (e : WEdge 3),
        (hdbscanRun dEx).dparents i = (s : ℤ) ∧
        (hstep dEx (hinit 3)).edges[s]? = some e ∧
        (e.source = i ∨ e.target = i))) :=
  ⟨⟨by norm_num, by decide⟩, C7_parent_dispatch dEx (by norm_num) (by decide)⟩

/-- Successive differences of the `edge_offsets` vector: the per-round
edge counts. -/
def diffsOf : List ℕ → List ℕ
  | a :: b :: rest => (b - a) :: diffsOf (b :: rest)
  | _ => []

theorem diffsOf_append_last : ∀ (offs : List ℕ) (a x : ℕ),
    offs.getLast? = some a →
    diffsOf (offs ++ [x]) = diffsOf offs ++ [x - a] := by
  intro offs
  induction offs with
  | nil => intro a x h; exact absurd h (by simp)
  | cons b rest ih =>
      intro a x h
      cases rest with
      | nil =>
          have hab : a = b := by
            have : some b = some a := by simpa using h
            exact (Option.some.inj this).symm
          subst hab
          rfl
      | cons c rest2 =>
          have h2 : (c :: rest2).getLast? = some a := by
            rwa [List.getLast?_cons_cons] at h
          have hx : (b :: c :: rest2) ++ [x] = b :: ((c :: rest2) ++ [x]) :=
            rfl
          rw [hx]
          show (c - b) :: diffsOf ((c :: rest2) ++ [x]) =
            ((c - b) :: diffsOf (c :: rest2)) ++ [x - a]
          rw [ih a x h2]
          rfl

/-- The bookkeeping invariant of `edge_offsets` and the slot range. -/
def OffVal (st : HState n) : Prop :=
  st.offsets.getLast? = some st.edges.length ∧
    (diffsOf st.offsets).sum = st.edges.length

section HMaster

variable {d : Fin n → Fin n → ℚ}

/-- One HDBSCAN round from a well-formed state with at least two
components: the invariants persist, and the new slot range is nonempty
and flush with the end of the grown edge array. -/
theorem hstep_props (hd : ∀ i j, d i j = d j i) {st : HState n}
    (hI : EdgeInv st.edges) (h2 : 2 ≤ numComps st.edges)
    (hE : st.eEnd = st.edges.length) (hoff : OffVal st) :
    (hstep d st).eEnd = (hstep d st).edges.length ∧
    (hstep d st).eStart < (hstep d st).eEnd ∧
    EdgeInv (hstep d st).edges ∧
    OffVal (hstep d st) ∧
    (∃ L, (hstep d st).edges =
        L ++ roundList d (minReach L) (List.finRange n) ∧
      (hstep d st).eStart = L.length) := by
  have he : (hstep d st).edges =
      st.edges ++ roundList d (minReach st.edges) (List.finRange n) := rfl
  have hee : (hstep d st).eEnd = (hstep d st).edges.length := rfl
  have hes : (hstep d st).eStart = st.eEnd := rfl
  have hoo : (hstep d st).offsets =
      st.offsets ++ [(hstep d st).edges.length] := rfl
  obtain ⟨hI2, hident, hdec, _, _⟩ :=
    round_preserves hd h2 (List.nodup_finRange n)
      (fun c => List.mem_finRange c) hI
  have hlen1 : 1 ≤ (roundList d (minReach st.edges) (List.finRange n)).length :=
    by omega
  have hgrow : st.edges.length < (hstep d st).edges.length := by
    rw [he, List.length_append]
    omega
  refine ⟨hee, ?_, he ▸ hI2, ?_, st.edges, he, by rw [hes, hE]⟩
  · rw [hee, hes, hE]
    exact hgrow
  · constructor
    · rw [hoo]
      exact List.getLast?_concat _
    · rw [hoo, diffsOf_append_last st.offsets st.edges.length _ hoff.1,
        List.sum_append, hoff.2]
      simp only [List.sum_cons, List.sum_nil]
      omega

/-- The loop invariant carried to the final state: the last round's slot
range `[edges_start, edges_end)` is nonempty, ends flush with the edge
array, and holds exactly the edges emitted in the final round; the edge
invariant and the offsets bookkeeping also persist. -/
theorem hrun_master (hd : ∀ i j, d i j = d j i) :
    ∀ (fuel : ℕ) (st : HState n), EdgeInv st.edges →
      2 ≤ numComps st.edges → st.eEnd = st.edges.length → OffVal st →
      ((hrun d fuel st).eEnd = (hrun d fuel st).edges.length ∧
       (hrun d fuel st).eStart < (hrun d fuel st).eEnd ∧
       EdgeInv (hrun d fuel st).edges ∧
       OffVal (hrun d fuel st) ∧
       (∃ L, (hrun d fuel st).edges =
           L ++ roundList d (minReach L) (List.finRange n) ∧
         (hrun d fuel st).eStart = L.length)) := by
  intro fuel
  induction fuel with
  | zero => intro st hI h2 hE hoff; exact hstep_props hd hI h2 hE hoff
  | succ fuel ih =>
      intro st hI h2 hE hoff
      obtain ⟨p1, p2, p3, p4, p5⟩ := hstep_props hd hI h2 hE hoff
      rw [hrun_unfold]
      by_cases hc : 1 < n - (hstep d st).edges.length
      · rw [if_pos hc]
        refine ih (hstep d st) p3 ?_ p1 p4
        obtain ⟨hcount, _, _⟩ := p3
        omega
      · rw [if_neg hc]
        exact ⟨p1, p2, p3, p4, p5⟩

/-- The HDBSCAN loop accumulates exactly the edges of the MST-mode loop
(the modes share the emission; `edges_mapping`, `sided_parents` and
`dendrogram_parents` are extra bookkeeping). -/
theorem hrun_edges_eq : ∀ (fuel : ℕ) (st : HState n) (it : ℕ),
    (hrun d fuel st).edges =
      (boruvkaRun d (defaultOrd n) fuel it st.edges).2 := by
  intro fuel
  induction fuel with
  | zero => intro st it; rfl
  | succ fuel ih =>
      intro st it
      rw [hrun_unfold]
      have e2 : boruvkaRun d (defaultOrd n) (fuel + 1) it st.edges =
          (if 1 < n - (st.edges ++ roundList d (minReach st.edges)
                (defaultOrd n it)).length
           then boruvkaRun d (defaultOrd n) fuel (it + 1)
             (st.edges ++ roundList d (minReach st.edges) (defaultOrd n it))
           else (it, st.edges ++ roundList d (minReach st.edges)
             (defaultOrd n it))) := rfl
      have hcond : st.edges ++ roundList d (minReach st.edges)
          (defaultOrd n it) = (hstep d st).edges := rfl
      rw [e2, hcond]
      by_cases hc : 1 < n - (hstep d st).edges.length
      · rw [if_pos hc, if_pos hc]
        exact ih (hstep d st) (it + 1)
      · rw [if_neg hc, if_neg hc]

theorem hdbscanRun_edges (d : Fin n → Fin n → ℚ) :
    (hdbscanRun d).edges = mstEdges d :=
  hrun_edges_eq n (hinit n) 1

end HMaster

/-! ### The dendrogram finalization (`computeParentsAndReorderEdges`)

Modelled from the spec (§4.8 "Finalization"): pair every edge with its
slot and sided value, sort each round's segment by the canonical
(weight, endpoints) order, then find each edge's parent by scanning
forward for the first edge whose slot its sided value designates;
searches that fall off the end — in particular every sided value that is
a (negative) sentinel — yield the root sentinel. -/

/-- Each edge paired with its slot and its `sided_parents` entry. -/
def slotted (edges : List (WEdge n)) (sided : ℕ → ℤ) :
    List (WEdge n × ℕ × ℤ) :=
  edges.enum.map (fun p => (p.2, p.1, sided p.1))

/-- Split a list into consecutive chunks of the given lengths. -/
def chunksAux {α : Type} : List ℕ → List α → List (List α)
  | [], _ => []
  | k :: rest, l => l.take k :: chunksAux rest (l.drop k)

theorem chunksAux_join {α : Type} : ∀ (ds : List ℕ) (l : List α),
    ds.sum = l.length → (chunksAux ds l).flatten = l := by
  intro ds
  induction ds with
  | nil =>
      intro l h
      have hl : l = [] := by
        have h0 : l.length = 0 := by simpa using h.symm
        exact List.length_eq_zero.1 h0
      rw [hl]
      rfl
  | cons k rest ih =>
      intro l h
      show l.take k ++ (chunksAux rest (l.drop k)).flatten = l
      rw [ih (l.drop k) (by
        rw [List.length_drop]
        have := List.sum_cons (a := k) (l := rest)
        omega)]
      exact List.take_append_drop k l

/-- The canonical order on slotted edges (sort key of §4.8 step 1). -/
def tripLE (t u : WEdge n × ℕ × ℤ) : Prop := canonLE t.1 u.1

instance : DecidableRel (tripLE (n := n)) :=
  fun t u => inferInstanceAs (Decidable (canonLE t.1 u.1))

/-- Step 1 of the finalization: sort the slotted edges of each round
(delimited by `edge_offsets`) by the canonical order. -/
def reorderTrips (offs : List ℕ) (trips : List (WEdge n × ℕ × ℤ)) :
    List (WEdge n × ℕ × ℤ) :=
  ((chunksAux (diffsOf offs) trips).map (List.insertionSort tripLE)).flatten

theorem reorderTrips_length {offs : List ℕ}
    {trips : List (WEdge n × ℕ × ℤ)}
    (h : (diffsOf offs).sum = trips.length) :
    (reorderTrips offs trips).length = trips.length := by
  unfold reorderTrips
  rw [List.length_flatten, List.map_map]
  have hcomp : (List.length ∘ List.insertionSort (tripLE (n := n))) =
      List.length := by
    funext l
    exact List.length_insertionSort _ l
  rw [hcomp]
  calc ((chunksAux (diffsOf offs) trips).map List.length).sum
      = (chunksAux (diffsOf offs) trips).flatten.length :=
        (List.length_flatten _).symm
    _ = trips.length := by rw [chunksAux_join _ _ h]

/-- The forward scan of §4.8 step 2: the first position whose slot the
sided value designates, or the root sentinel if the search falls off the
end.  A negative (sentinel) sided value matches no slot. -/
def findMatchAux : List (WEdge n × ℕ × ℤ) → ℕ → ℤ → ℤ
  | [], _, _ => ROOT_SENTINEL
  | t :: rest, p, sv =>
      if 0 ≤ sv ∧ sv / 2 = (t.2.1 : ℤ) then (p : ℤ)
      else findMatchAux rest (p + 1) sv

theorem findMatchAux_neg : ∀ (l : List (WEdge n × ℕ × ℤ)) (p : ℕ) (sv : ℤ),
    sv < 0 → findMatchAux l p sv = ROOT_SENTINEL := by
  intro l
  induction l with
  | nil => intro p sv _; rfl
  | cons t rest ih =>
      intro p sv hsv
      show (if 0 ≤ sv ∧ sv / 2 = (t.2.1 : ℤ) then (p : ℤ)
        else findMatchAux rest (p + 1) sv) = ROOT_SENTINEL
      rw [if_neg (by omega), ih (p + 1) sv hsv]

/-- Step 2 of the finalization: every reordered edge's dendrogram
parent. -/
def parentScan (trips : List (WEdge n × ℕ × ℤ)) : List ℤ :=
  (List.range trips.length).map (fun j =>
    match trips[j]? with
    | some t => findMatchAux (trips.drop (j + 1)) (j + 1) t.2.2
    | none => ROOT_SENTINEL)

/-- Maximal runs of consecutive elements related by `f` (step 3's
equal-height, equal-parent chains). -/
def runsBy {α : Type} (f : α → α → Bool) : List α → List (List α)
  | [] => []
  | a :: rest =>
      match runsBy f rest with
      | [] => [[a]]
      | [] :: gs => [a] :: gs
      | (b :: g) :: gs =>
          if f a b then (a :: b :: g) :: gs else [a] :: (b :: g) :: gs

/-- Offsets of the chain partition (a prefix sum of the run lengths). -/
def prefixSums : List ℕ → ℕ → List ℕ
  | [], acc => [acc]
  | k :: rest, acc => acc :: prefixSums rest (acc + k)

/-- The reordered slotted edges of the finished HDBSCAN run. -/
def hdbscanTrips (d : Fin n → Fin n → ℚ) : List (WEdge n × ℕ × ℤ) :=
  reorderTrips (hdbscanRun d).offsets
    (slotted (hdbscanRun d).edges (hdbscanSided d))

/-- The final (reordered) `edges` view in HDBSCAN mode. -/
def hdbscanEdges (d : Fin n → Fin n → ℚ) : List (WEdge n) :=
  (hdbscanTrips d).map (fun t => t.1)

/-- The edge part (indices `0 … n-2`) of `dendrogram_parents`. -/
def hdbscanParents (d : Fin n → Fin n → ℚ) : List ℤ :=
  parentScan (hdbscanTrips d)

/-- The equal-(height, parent) chains of the finalized dendrogram. -/
def hdbscanChains (d : Fin n → Fin n → ℚ) : List (List (ℚ × ℤ)) :=
  runsBy (fun a b => decide (a.1 = b.1) && decide (a.2 = b.2))
    (((hdbscanEdges d).map WEdge.weight).zip (hdbscanParents d))

/-- The HDBSCAN-mode `doBoruvka` output views: the reordered edges, the
dendrogram parents (edge part then leaf part), the parent heights
`heights(e) = edges(e).weight` (source lines 304–311), and the chain
structure. -/
def hdbscanConstruct (d : Fin n → Fin n → ℚ) : MSTResult n :=
  { edges := hdbscanEdges d
    dendrogram_parents :=
      hdbscanParents d ++ (List.finRange n).map (hdbscanRun d).dparents
    dendrogram_parent_heights := (hdbscanEdges d).map WEdge.weight
    chain_offsets := prefixSums ((hdbscanChains d).map List.length) 0
    chain_levels := List.range (hdbscanChains d).length }

/-- **C8.**  After the Borůvka loop finishes in HDBSCAN mode, the
`sided_parents` entries of every slot of the final round — the nonempty
range `[edges_start, edges_end)`, flush with the end of the edge array
and holding exactly the final round's emissions — are `ROOT_CHAIN_VALUE`,
and in the finalization every edge carrying that sentinel resolves its
dendrogram parent to the root sentinel. -/
theorem C8_root_chain (d : Fin n → Fin n → ℚ) (hn : 2 ≤ n)
    (hd : ∀ i j, d i j = d j i) :
    (∀ j, (hdbscanRun d).eStart ≤ j → j < (hdbscanRun d).eEnd →
      hdbscanSided d j = ROOT_CHAIN_VALUE)
    ∧ (hdbscanRun d).eEnd = (hdbscanRun d).edges.length
    ∧ (hdbscanRun d).eStart < (hdbscanRun d).eEnd
    ∧ (∃ L, (hdbscanRun d).edges =
        L ++ roundList d (minReach L) (List.finRange n) ∧
        (hdbscanRun d).eStart = L.length)
    ∧ (∀ (p : ℕ) (t : WEdge n × ℕ × ℤ), (hdbscanTrips d)[p]? = some t →
        t.2.2 = ROOT_CHAIN_VALUE →
        (hdbscanParents d)[p]? = some ROOT_SENTINEL) := by
  have h2 : 2 ≤ numComps (hinit n).edges := by
    have : numComps ((hinit n).edges) = n := numComps_nil
    omega
  have hoff : OffVal (hinit n) := ⟨rfl, rfl⟩
  obtain ⟨p1, p2, p3, p4, p5⟩ :=
    hrun_master hd n (hinit n) edgeInv_nil h2 rfl hoff
  refine ⟨?_, p1, p2, p5, ?_⟩
  · intro j h1 hj
    unfold hdbscanSided rootChainFill
    rw [if_pos ⟨h1, hj⟩]
  · intro p t hp ht
    have hlt : p < (hdbscanTrips d).length := by
      by_contra hge
      rw [List.getElem?_eq_none (by omega)] at hp
      exact absurd hp (by simp)
    show (parentScan (hdbscanTrips d))[p]? = some ROOT_SENTINEL
    unfold parentScan
    rw [List.getElem?_map, List.getElem?_range hlt]
    show some (match (hdbscanTrips d)[p]? with
      | some t => findMatchAux ((hdbscanTrips d).drop (p + 1)) (p + 1) t.2.2
      | none => ROOT_SENTINEL) = some ROOT_SENTINEL
    rw [hp]
    show some (findMatchAux ((hdbscanTrips d).drop (p + 1)) (p + 1) t.2.2) =
      some ROOT_SENTINEL
    rw [ht, findMatchAux_neg _ _ _ (by norm_num [ROOT_CHAIN_VALUE])]

theorem C8_root_chain_witness :
    (2 ≤ 3 ∧ ∀ i j : Fin 3, dEx i j = dEx j i) ∧
    ((∀ j, (hdbscanRun dEx).eStart ≤ j → j < (hdbscanRun dEx).eEnd →
      hdbscanSided dEx j = ROOT_CHAIN_VALUE)
    ∧ (hdbscanRun dEx).eEnd = (hdbscanRun dEx).edges.length
    ∧ (hdbscanRun dEx).eStart < (hdbscanRun dEx).eEnd
    ∧ (∃ L, (hdbscanRun dEx).edges =
        L ++ roundList dEx (minReach L) (List.finRange 3) ∧
        (hdbscanRun dEx).eStart = L.length)
    ∧ (∀ (p : ℕ) (t : WEdge 3 × ℕ × ℤ), (hdbscanTrips dEx)[p]? = some t →
        t.2.2 = ROOT_CHAIN_VALUE →
        (hdbscanParents dEx)[p]? = some ROOT_SENTINEL)) :=
  ⟨⟨by norm_num, by decide⟩, C8_root_chain dEx (by norm_num) (by decide)⟩

/-- **C9.**  In HDBSCAN mode, after construction,
`dendrogram_parent_heights` is exactly the weight of the like-indexed
entry of the (reordered) `edges` view: the whole view is
`edges.map weight`, its length is `n - 1`, and entrywise
`heights[e] = edges[e].weight` for every `e`. -/
theorem C9_parent_heights (d : Fin n → Fin n → ℚ) (hn : 2 ≤ n)
    (hd : ∀ i j, d i j = d j i) :
    (hdbscanConstruct d).dendrogram_parent_heights =
      (hdbscanConstruct d).edges.map WEdge.weight
    ∧ (hdbscanConstruct d).edges.length = n - 1
    ∧ ∀ j : ℕ, (hdbscanConstruct d).dendrogram_parent_heights[j]? =
        ((hdbscanConstruct d).edges[j]?).map WEdge.weight := by
  refine ⟨rfl, ?_, ?_⟩
  · have h2 : 2 ≤ numComps (hinit n).edges := by
      have : numComps ((hinit n).edges) = n := numComps_nil
      omega
    obtain ⟨_, _, _, hoffv, _⟩ :=
      hrun_master hd n (hinit n) edgeInv_nil h2 rfl ⟨rfl, rfl⟩
    have hslen : (slotted (hdbscanRun d).edges (hdbscanSided d)).length =
        (hdbscanRun d).edges.length := by
      unfold slotted
      rw [List.length_map, List.enum_length]
    have htlen : (hdbscanTrips d).length = (hdbscanRun d).edges.length := by
      unfold hdbscanTrips
      rw [reorderTrips_length (by rw [hslen]; exact hoffv.2), hslen]
    have hmlen : (mstEdges d).length = n - 1 := by
      obtain ⟨_, _, ⟨hcount, _, _⟩, hone, _, _, _⟩ :=
        mstRun_spec (d := d) hd hn defaultOrd_nodup defaultOrd_mem
      show ((mstRun d (defaultOrd n)).2).length = n - 1
      omega
    show (hdbscanEdges d).length = n - 1
    unfold hdbscanEdges
    rw [List.length_map, htlen, hdbscanRun_edges, hmlen]
  · intro j
    show ((hdbscanEdges d).map WEdge.weight)[j]? =
      ((hdbscanEdges d)[j]?).map WEdge.weight
    rw [List.getElem?_map]

theorem C9_parent_heights_witness :
    (2 ≤ 3 ∧ ∀ i j : Fin 3, dEx i j = dEx j i) ∧
    ((hdbscanConstruct dEx).dendrogram_parent_heights =
      (hdbscanConstruct dEx).edges.map WEdge.weight
    ∧ (hdbscanConstruct dEx).edges.length = 3 - 1
    ∧ ∀ j : ℕ, (hdbscanConstruct dEx).dendrogram_parent_heights[j]? =
        ((hdbscanConstruct dEx).edges[j]?).map WEdge.weight) :=
  ⟨⟨by norm_num, by decide⟩, C9_parent_heights dEx (by norm_num) (by decide)⟩

/-- The `BoruvkaMode` template parameter of `MinimumSpanningTree`. -/
inductive BoruvkaMode where
  | MST : BoruvkaMode
  | HDBSCAN : BoruvkaMode

/-- The constructor with its `Mode` template argument (source lines
31–54): in MST mode (the default), the four dendrogram members stay as
member-initialized — length 0 and never reallocated, since every resize
and write of them sits inside `Mode == BoruvkaMode::HDBSCAN` blocks
(source lines 177–183 and 279–312); in HDBSCAN mode `doBoruvka`
additionally assembles them, under the same `k > 1` metric dispatch. -/
def modeConstruct (mode : BoruvkaMode) (d0 : Fin n → Fin n → ℚ) (k : ℤ) :
    MSTResult n :=
  match mode with
  | BoruvkaMode.MST => mstConstruct d0 k
  | BoruvkaMode.HDBSCAN =>
      if 1 < k then
        hdbscanConstruct (mutualReachability d0 (coreDistance d0 k.toNat))
      else hdbscanConstruct d0

/-- **C10.**  In MST mode, for every input, the four dendrogram outputs
of the constructed object are all left at length 0. -/
theorem C10_mst_mode_empty (d0 : Fin n → Fin n → ℚ) (k : ℤ) :
    (modeConstruct BoruvkaMode.MST d0 k).dendrogram_parents = []
    ∧ (modeConstruct BoruvkaMode.MST d0 k).dendrogram_parent_heights = []
    ∧ (modeConstruct BoruvkaMode.MST d0 k).chain_offsets = []
    ∧ (modeConstruct BoruvkaMode.MST d0 k).chain_levels = [] := by
  show (mstConstruct d0 k).dendrogram_parents = []
    ∧ (mstConstruct d0 k).dendrogram_parent_heights = []
    ∧ (mstConstruct d0 k).chain_offsets = []
    ∧ (mstConstruct d0 k).chain_levels = []
  unfold mstConstruct
  by_cases hk : 1 < k
  · rw [if_pos hk]
    exact ⟨rfl, rfl, rfl, rfl⟩
  · rw [if_neg hk]
    exact ⟨rfl, rfl, rfl, rfl⟩

end ArborX
